import Mathlib

/-!
Verification development for the local-mem workstream store and its
relationship-heuristics engine.

The Python sources are shallowly embedded:

* `Workstream` mirrors the dataclass in `src/types.py`.  The metadata
  sub-structure (`WorkstreamMetadata`) is carried as the flat key/value
  dict it round-trips through (`to_dict`/`from_dict` split the dict into
  known fields plus an extension bag and reassemble it; no verified
  property inspects the split, so the dict itself is stored).
* The storage class (`src/storage.py`) keeps a Python dict keyed by the
  entity id; it is embedded as a list of workstreams in insertion order:
  lookup is first-match by id, dict assignment of an existing key is
  in-place replacement, deletion filters the key out.
* `datetime.now()` values are passed in as explicit string parameters
  (the source renders the same instant in two formats — note timestamp
  and ISO `updated_at`; the two renderings are not distinguished here).
* The id generator `ws-<millis>-<random>` is modelled by passing the
  generated id as a parameter; the reachability relation records the
  guarantees the generator provides (nonempty, never collides with any
  id or parent reference chosen before it).
* `list(set(...))` on tags is modelled with `List.dedup` of the
  concatenation: the element set and the length agree with the source;
  CPython's set iteration order is not semantically meaningful.
* Python note indices are `Int` (tests exercise `-1`).
-/

/-- One key/value metadata dict, `src/types.py` `WorkstreamMetadata` flattened
through its `to_dict`. -/
abbrev Metadata := List (String × String)

/-- The `Workstream` dataclass of `src/types.py`. -/
structure Workstream where
  id : String
  name : String
  summary : String
  tags : List String
  metadata : Metadata
  notes : List String
  parent_id : Option String
  created_at : String
  updated_at : String
deriving DecidableEq

/-- `CreateWorkstreamRequest` of `src/types.py`. -/
structure CreateWorkstreamRequest where
  name : String
  summary : String
  tags : List String
  metadata : Option Metadata
  parent_id : Option String
deriving DecidableEq

/-- `UpdateWorkstreamRequest` of `src/types.py`. -/
structure UpdateWorkstreamRequest where
  id : String
  name : Option String
  summary : Option String
  tags : Option (List String)
  metadata : Option Metadata
  parent_id : Option String
deriving DecidableEq

/-- The in-memory store `WorkstreamStorage._workstreams`, in insertion order. -/
abbrev Store := List Workstream

/-- Dict lookup `self._workstreams.get(id)`. -/
def findWS (s : Store) (id : String) : Option Workstream :=
  s.find? (fun w => w.id == id)

/-- Dict assignment `self._workstreams[id] = w'` for a key already present:
replace the entry in place. -/
def replaceWS (s : Store) (id : String) (w' : Workstream) : Store :=
  s.map (fun w => if w.id == id then w' else w)

/-- Python truthiness of an `Optional[str]`: `None` and `""` are falsy. -/
def truthy : Option String → Bool
  | none => false
  | some s => !s.isEmpty

/-- `WorkstreamStorage.create` (storage.py:70).  `new_id` and `now` stand for
`self._generate_id()` and `datetime.now().isoformat()`. -/
def create (s : Store) (req : CreateWorkstreamRequest) (new_id now : String) :
    Store × Workstream :=
  let w : Workstream :=
    { id := new_id
      name := req.name
      summary := req.summary
      tags := req.tags
      metadata := req.metadata.getD []
      notes := []
      parent_id := req.parent_id
      created_at := now
      updated_at := now }
  (s ++ [w], w)

/-- Python `dict.update`: keys present in `old` are overwritten in place,
new keys of `upd` are appended in order. -/
def dictUpdate (old upd : Metadata) : Metadata :=
  old.map (fun kv =>
    match upd.find? (fun kv2 => kv2.1 == kv.1) with
    | some kv2 => (kv.1, kv2.2)
    | none => kv)
  ++ upd.filter (fun kv2 => !(old.any (fun kv => kv.1 == kv2.1)))

/-- The field-by-field body of `WorkstreamStorage.update` (storage.py:108-122):
each field changes only when present in the request; a `parent_id` of
`some ""` is the clear-parent sentinel, `none` leaves the parent untouched.
No existence or cycle check is performed on `parent_id`. -/
def applyUpdate (w : Workstream) (req : UpdateWorkstreamRequest) : Workstream :=
  let w1 := match req.name with | some v => { w with name := v } | none => w
  let w2 := match req.summary with | some v => { w1 with summary := v } | none => w1
  let w3 := match req.tags with | some v => { w2 with tags := v } | none => w2
  let w4 := match req.metadata with
    | some m => { w3 with metadata := dictUpdate w3.metadata m }
    | none => w3
  match req.parent_id with
  | some p => { w4 with parent_id := if p = "" then none else some p }
  | none => w4

/-- `WorkstreamStorage.update` (storage.py:100). -/
def update (s : Store) (req : UpdateWorkstreamRequest) (now : String) :
    Store × Option Workstream :=
  match findWS s req.id with
  | none => (s, none)
  | some w =>
    let w6 := { applyUpdate w req with updated_at := now }
    (replaceWS s req.id w6, some w6)

/-- `WorkstreamStorage.delete` (storage.py:130). -/
def delete (s : Store) (id : String) : Store × Bool :=
  if (findWS s id).isSome then (s.filter (fun w => !(w.id == id)), true)
  else (s, false)

/-- `WorkstreamStorage.add_tags` (storage.py:138): `list(set(old) | set(new))`
is modelled as `(old ++ new).dedup` (same element set, same length). -/
def add_tags (s : Store) (id : String) (tags : List String) (now : String) :
    Store × Option Workstream :=
  match findWS s id with
  | none => (s, none)
  | some w =>
    let w' := { w with
      tags := (w.tags ++ tags).dedup
      updated_at := now }
    (replaceWS s id w', some w')

/-- `WorkstreamStorage.search_by_tags` (storage.py:156). -/
def search_by_tags (s : Store) (tags : List String) (match_all : Bool) :
    List Workstream :=
  if match_all then s.filter (fun w => tags.all (fun t => w.tags.contains t))
  else s.filter (fun w => tags.any (fun t => w.tags.contains t))

/-- `WorkstreamStorage.add_note` (storage.py:180): appends a timestamped note. -/
def add_note (s : Store) (id : String) (note : String) (now : String) :
    Store × Option Workstream :=
  match findWS s id with
  | none => (s, none)
  | some w =>
    let w' := { w with
      notes := w.notes ++ ["[" ++ now ++ "] " ++ note]
      updated_at := now }
    (replaceWS s id w', some w')

/-- Python `str.upper()` on the ASCII categories used here. -/
def pyUpper (s : String) : String := String.mk (s.data.map Char.toUpper)

/-- Note text layout used by the note-editing operation: spec §3 and scenario 4,
`[timestamp]` then an optional upper-cased `[CATEGORY]`, then the content. -/
def formatNote (now : String) (category : Option String) (content : String) :
    String :=
  "[" ++ now ++ "]" ++
    (match category with
     | some c => "[" ++ pyUpper c ++ "]"
     | none => "") ++ " " ++ content

/-- Modelled from the spec: `WorkstreamStorage.update_note` is absent from the
source snapshot (only its callers in `server.py`/`web.py` and its tests are
present).  Spec §4.1: index-addressed mutation of note `index`; "fails
(returns not found) if id unknown or index out of [0, len(notes))"; scenario 4
gives the rewritten note the `[timestamp][CATEGORY] content` layout. -/
def update_note (s : Store) (id : String) (index : Int) (content : String)
    (category : Option String) (now : String) : Store × Option Workstream :=
  match findWS s id with
  | none => (s, none)
  | some w =>
    if index < 0 ∨ (w.notes.length : Int) ≤ index then (s, none)
    else
      let w' := { w with
        notes := w.notes.set index.toNat (formatNote now category content)
        updated_at := now }
      (replaceWS s id w', some w')

/-- Modelled from the spec: `WorkstreamStorage.delete_note` is absent from the
source snapshot (only its callers and tests are present).  Spec §4.1:
index-addressed removal; "fails (returns not found) if id unknown or index
out of [0, len(notes))". -/
def delete_note (s : Store) (id : String) (index : Int) (now : String) :
    Store × Option Workstream :=
  match findWS s id with
  | none => (s, none)
  | some w =>
    if index < 0 ∨ (w.notes.length : Int) ≤ index then (s, none)
    else
      let w' := { w with
        notes := w.notes.eraseIdx index.toNat
        updated_at := now }
      (replaceWS s id w', some w')

/-- The ancestor walk of `WorkstreamStorage.set_parent` (storage.py:216):
`current = parent_id; while current: if current == id: reject; current =
get(current).parent_id or None`.  The source loop carries no bound; `fuel`
counts the parent links followed, and `none` means the loop has not finished
within `fuel` link-follows (`cycleCheck_complete` below shows fuel
`s.length + 1` decides every run that terminates at all). -/
def cycleCheck (s : Store) (id : String) : Option String → Nat → Option Bool
  | none, _ => some true
  | some c, fuel =>
    if c = "" then some true
    else if c = id then some false
    else
      match fuel with
      | 0 => none
      | fuel' + 1 => cycleCheck s id ((findWS s c).bind (fun w => w.parent_id)) fuel'

/-- Result of `set_parent`: Python returns `None` on any rejection, the updated
workstream on success, and does not return at all when the ancestor walk loops
on corrupted data (`hang`). -/
inductive SPResult where
  | notFound
  | ok (w : Workstream)
  | hang
deriving DecidableEq

/-- `WorkstreamStorage.set_parent` (storage.py:204): target must exist; a truthy
`parent_id` must exist and must pass the cycle walk.  The walk is evaluated
with fuel `s.length + 1`, which by `cycleCheck_complete` returns `some r`
exactly when the unbounded source loop terminates with `r`; the leftover
`none` case is the source's divergence, reported as `hang`. -/
def set_parent (s : Store) (id : String) (parent_id : Option String)
    (now : String) : Store × SPResult :=
  match findWS s id with
  | none => (s, .notFound)
  | some w =>
    if truthy parent_id && (findWS s (parent_id.getD "")).isNone then (s, .notFound)
    else if truthy parent_id then
      match cycleCheck s id parent_id (s.length + 1) with
      | some false => (s, .notFound)
      | none => (s, .hang)
      | some true =>
        let w' := { w with
          parent_id := parent_id
          updated_at := now }
        (replaceWS s id w', .ok w')
    else
      let w' := { w with
        parent_id := parent_id
        updated_at := now }
      (replaceWS s id w', .ok w')

/-! ### Deterministic link walks

Both the spec's "follow `parent_id` links from an entity" notion and the
`set_parent` cycle walk are deterministic walks over strings that either exit
with a verdict at the current string or follow one outgoing link, spending one
unit of fuel per link.  `walk` is the common combinator; `runG` is the same
walk as an indexed run, used to prove that any terminating walk visits
pairwise-distinct strings and hence terminates within a fuel bound given by a
pigeonhole count. -/

/-- One step of a deterministic walk: stop with a verdict, or follow a link
(`none` = fall off the chain, which accepts on the next step). -/
inductive WStep where
  | exit (accept : Bool)
  | go (nxt : Option String)
deriving DecidableEq

/-- Run the walk: exits are free, each link-follow costs one unit of fuel;
`none` means the fuel ran out before a verdict. -/
def walk (g : String → WStep) : Option String → Nat → Option Bool
  | none, _ => some true
  | some c, fuel =>
    match g c with
    | .exit b => some b
    | .go nxt =>
      match fuel with
      | 0 => none
      | fuel' + 1 => walk g nxt fuel'

/-- The successor state of the indexed run (exits become `none`). -/
def stepG (g : String → WStep) : Option String → Option String
  | none => none
  | some c =>
    match g c with
    | .exit _ => none
    | .go nxt => nxt

/-- The state after `n` steps of the indexed run. -/
def runG (g : String → WStep) : Nat → Option String → Option String
  | 0, st => st
  | n + 1, st => runG g n (stepG g st)

/-- The verdict available at a state, if any. -/
def exitVal (g : String → WStep) : Option String → Option Bool
  | none => some true
  | some c =>
    match g c with
    | .exit b => some b
    | .go _ => none

theorem stepG_none (g : String → WStep) : stepG g none = none := rfl

theorem runG_none (g : String → WStep) (n : Nat) : runG g n none = none := by
  induction n with
  | zero => rfl
  | succ n ih => simpa [runG, stepG] using ih

theorem runG_add (g : String → WStep) (m n : Nat) (st : Option String) :
    runG g (m + n) st = runG g n (runG g m st) := by
  induction m generalizing st with
  | zero => simp [runG]
  | succ m ih =>
    have : m + 1 + n = (m + n) + 1 := by omega
    rw [this]
    show runG g (m + n) (stepG g st) = runG g n (runG g (m + 1) st)
    rw [ih]
    rfl

theorem walk_of_exitVal {g : String → WStep} {st : Option String} {b : Bool}
    (h : exitVal g st = some b) (n : Nat) : walk g st n = some b := by
  cases st with
  | none =>
    have hb : b = true := by simpa [exitVal] using h
    subst hb
    cases n <;> rfl
  | some c =>
    cases hg : g c with
    | exit b' =>
      simp [exitVal, hg] at h
      cases n <;> simp [walk, hg, h]
    | go nxt => simp [exitVal, hg] at h

theorem walk_go_zero {g : String → WStep} {st : Option String}
    (h : exitVal g st = none) : walk g st 0 = none := by
  cases st with
  | none => simp [exitVal] at h
  | some c =>
    cases hg : g c with
    | exit b => simp [exitVal, hg] at h
    | go nxt => simp [walk, hg]

theorem walk_go_succ {g : String → WStep} {st : Option String} (n : Nat)
    (h : exitVal g st = none) : walk g st (n + 1) = walk g (stepG g st) n := by
  cases st with
  | none => simp [exitVal] at h
  | some c =>
    cases hg : g c with
    | exit b => simp [exitVal, hg] at h
    | go nxt => simp [walk, stepG, hg]

/-- Soundness: a walk that reaches a verdict corresponds to an indexed run
reaching an exit state at its first exit index. -/
theorem walk_to_run {g : String → WStep} {r : Bool} :
    ∀ (n : Nat) (st : Option String), walk g st n = some r →
      ∃ k, k ≤ n ∧ exitVal g (runG g k st) = some r ∧
        ∀ j, j < k → exitVal g (runG g j st) = none := by
  intro n
  induction n with
  | zero =>
    intro st h
    refine ⟨0, le_refl 0, ?_, by omega⟩
    cases hev : exitVal g st with
    | none => rw [walk_go_zero hev] at h; exact absurd h (by simp)
    | some b =>
      rw [walk_of_exitVal hev 0] at h
      simpa [runG] using hev.trans (by simpa using h)
  | succ n ih =>
    intro st h
    cases hev : exitVal g st with
    | some b =>
      rw [walk_of_exitVal hev (n + 1)] at h
      exact ⟨0, by omega, by simpa [runG] using hev.trans (by simpa using h), by omega⟩
    | none =>
      rw [walk_go_succ n hev] at h
      obtain ⟨k, hk, hex, hpre⟩ := ih (stepG g st) h
      refine ⟨k + 1, by omega, ?_, ?_⟩
      · show exitVal g (runG g (k + 1) st) = some r
        simpa [runG] using hex
      · intro j hj
        cases j with
        | zero => simpa [runG] using hev
        | succ j => exact (by simpa [runG] using hpre j (by omega))

/-- Adequacy: an indexed run that reaches its first exit at index `k` makes the
walk return the verdict for any fuel `≥ k`. -/
theorem run_to_walk {g : String → WStep} {r : Bool} :
    ∀ (k : Nat) (st : Option String) (n : Nat),
      (∀ j, j < k → exitVal g (runG g j st) = none) →
      exitVal g (runG g k st) = some r → k ≤ n → walk g st n = some r := by
  intro k
  induction k with
  | zero =>
    intro st n _ hex _
    exact walk_of_exitVal (by simpa [runG] using hex) n
  | succ k ih =>
    intro st n hpre hex hkn
    have hev : exitVal g st = none := by simpa [runG] using hpre 0 (by omega)
    obtain ⟨n', rfl⟩ : ∃ n', n = n' + 1 := ⟨n - 1, by omega⟩
    rw [walk_go_succ n' hev]
    refine ih (stepG g st) n' (fun j hj => ?_) (by simpa [runG] using hex) (by omega)
    simpa [runG] using hpre (j + 1) (by omega)

/-- A run that exits at index `k` never repeats a state before `k`: a repeat
would make the run periodic, contradicting the exit. -/
theorem run_no_repeat {g : String → WStep} {st : Option String} {k : Nat} {r : Bool}
    (hpre : ∀ j, j < k → exitVal g (runG g j st) = none)
    (hex : exitVal g (runG g k st) = some r) :
    ∀ i j, i < j → j ≤ k → runG g i st ≠ runG g j st := by
  intro i j hij hjk heqv
  have hshift : ∀ m, runG g (i + m) st = runG g (j + m) st := by
    intro m
    rw [runG_add, runG_add, heqv]
  have hkp : runG g (k - (j - i)) st = runG g k st := by
    have h1 : i + (k - j) = k - (j - i) := by omega
    have h2 : j + (k - j) = k := by omega
    calc runG g (k - (j - i)) st = runG g (i + (k - j)) st := by rw [h1]
      _ = runG g (j + (k - j)) st := hshift (k - j)
      _ = runG g k st := by rw [h2]
  have hlt : k - (j - i) < k := by omega
  have := hpre (k - (j - i)) hlt
  rw [hkp, hex] at this
  exact absurd this (by simp)

/-- Pigeonhole bound, strict form: when every link-following string belongs to
the finite set `S`, a walk that terminates at all terminates within `S.card`
link-follows. -/
theorem walk_complete_strict (g : String → WStep) (S : Finset String)
    (hgo : ∀ c nxt, g c = .go nxt → c ∈ S)
    {st : Option String} {n : Nat} {r : Bool}
    (h : walk g st n = some r) : walk g st S.card = some r := by
  obtain ⟨k, _, hex, hpre⟩ := walk_to_run n st h
  have hstate : ∀ j, j < k → ∃ c, runG g j st = some c ∧ c ∈ S := by
    intro j hj
    have hev := hpre j hj
    cases hst : runG g j st with
    | none => rw [hst] at hev; simp [exitVal] at hev
    | some c =>
      rw [hst] at hev
      cases hg : g c with
      | exit b => simp [exitVal, hg] at hev
      | go nxt => exact ⟨c, rfl, hgo c nxt hg⟩
  have hcard : k ≤ S.card := by
    have hinj : Set.InjOn (fun j => (runG g j st).getD "") (Finset.range k) := by
      intro i hi j hj hfe
      by_contra hne
      rcases Nat.lt_or_ge i j with hij | hji
      · obtain ⟨ci, hci, _⟩ := hstate i (Finset.mem_range.mp hi)
        obtain ⟨cj, hcj, _⟩ := hstate j (Finset.mem_range.mp hj)
        refine run_no_repeat hpre hex i j hij (le_of_lt (Finset.mem_range.mp hj)) ?_
        rw [hci, hcj]
        simpa [hci, hcj] using hfe
      · have hij : j < i := by omega
        obtain ⟨ci, hci, _⟩ := hstate i (Finset.mem_range.mp hi)
        obtain ⟨cj, hcj, _⟩ := hstate j (Finset.mem_range.mp hj)
        refine run_no_repeat hpre hex j i hij (le_of_lt (Finset.mem_range.mp hi)) ?_
        rw [hci, hcj]
        simpa [hci, hcj] using hfe.symm
    have hmaps : ∀ j ∈ Finset.range k, (runG g j st).getD "" ∈ S := by
      intro j hj
      obtain ⟨c, hc, hcS⟩ := hstate j (Finset.mem_range.mp hj)
      simpa [hc] using hcS
    simpa using Finset.card_le_card_of_injOn _ hmaps hinj
  exact run_to_walk k st S.card hpre hex hcard

/-- Pigeonhole bound, lax form: when only the strings following a real link
(`go (some _)`) need to lie in `S`, a terminating walk terminates within
`S.card + 1` link-follows (the run can pass through at most one dangling
string, just before falling off the chain). -/
theorem walk_complete_lax (g : String → WStep) (S : Finset String)
    (hgo : ∀ c x, g c = .go (some x) → c ∈ S)
    {st : Option String} {n : Nat} {r : Bool}
    (h : walk g st n = some r) : walk g st (S.card + 1) = some r := by
  obtain ⟨k, _, hex, hpre⟩ := walk_to_run n st h
  have hstate : ∀ j, j + 1 < k → ∃ c, runG g j st = some c ∧ c ∈ S := by
    intro j hj
    have hev := hpre j (by omega)
    cases hst : runG g j st with
    | none => rw [hst] at hev; simp [exitVal] at hev
    | some c =>
      rw [hst] at hev
      cases hg : g c with
      | exit b => simp [exitVal, hg] at hev
      | go nxt =>
        cases nxt with
        | some x => exact ⟨c, rfl, hgo c x hg⟩
        | none =>
          exfalso
          have hnext : runG g (j + 1) st = none := by
            have : runG g (j + 1) st = runG g 1 (runG g j st) := by
              rw [← runG_add]
            rw [this, hst]
            simp [runG, stepG, hg, runG_none]
          have := hpre (j + 1) hj
          rw [hnext] at this
          simp [exitVal] at this
  have hcard : k ≤ S.card + 1 := by
    rcases Nat.eq_zero_or_pos k with hk0 | hkpos
    · omega
    have hinj : Set.InjOn (fun j => (runG g j st).getD "") (Finset.range (k - 1)) := by
      intro i hi j hj hfe
      have hi' := Finset.mem_range.mp hi
      have hj' := Finset.mem_range.mp hj
      by_contra hne
      rcases Nat.lt_or_ge i j with hij | hji
      · obtain ⟨ci, hci, _⟩ := hstate i (by omega)
        obtain ⟨cj, hcj, _⟩ := hstate j (by omega)
        refine run_no_repeat hpre hex i j hij (by omega) ?_
        rw [hci, hcj]
        simpa [hci, hcj] using hfe
      · have hij : j < i := by omega
        obtain ⟨ci, hci, _⟩ := hstate i (by omega)
        obtain ⟨cj, hcj, _⟩ := hstate j (by omega)
        refine run_no_repeat hpre hex j i hij (by omega) ?_
        rw [hci, hcj]
        simpa [hci, hcj] using hfe.symm
    have hmaps : ∀ j ∈ Finset.range (k - 1), (runG g j st).getD "" ∈ S := by
      intro j hj
      have hj' := Finset.mem_range.mp hj
      obtain ⟨c, hc, hcS⟩ := hstate j (by omega)
      simpa [hc] using hcS
    have := Finset.card_le_card_of_injOn _ hmaps hinj
    simp at this
    omega
  exact run_to_walk k st (S.card + 1) hpre hex hcard

/-- Fuel monotonicity of the walk. -/
theorem walk_mono {g : String → WStep} {st : Option String} {n m : Nat} {r : Bool}
    (h : walk g st n = some r) (hnm : n ≤ m) : walk g st m = some r := by
  obtain ⟨k, hk, hex, hpre⟩ := walk_to_run n st h
  exact run_to_walk k st m hpre hex (by omega)


/-! ### The two walks of the claims -/

/-- Walk step for the spec's "follow `parent_id` links" notion (§8 Acyclicity):
a string naming no entity ends the walk, an entity hands the walk to its
parent reference. -/
def gFollow (s : Store) (c : String) : WStep :=
  match findWS s c with
  | none => .exit true
  | some w => .go w.parent_id

/-- Walk step for the `set_parent` cycle walk on store `s` with target `id`:
`while current:` makes `""` end the walk accepting, reaching `id` rejects,
anything else follows `get(current).parent_id or None`. -/
def gCheck (s : Store) (id : String) (c : String) : WStep :=
  if c = "" then .exit true
  else if c = id then .exit false
  else .go ((findWS s c).bind (fun w => w.parent_id))

/-- `cycleCheck` is the generic walk over `gCheck`. -/
theorem cycleCheck_eq_walk (s : Store) (id : String) :
    ∀ (fuel : Nat) (st : Option String),
      cycleCheck s id st fuel = walk (gCheck s id) st fuel := by
  intro fuel
  induction fuel with
  | zero =>
    intro st
    cases st with
    | none => rfl
    | some c =>
      by_cases h0 : c = ""
      · simp [cycleCheck, walk, gCheck, h0]
      · by_cases h1 : c = id
        · subst h1; simp [cycleCheck, walk, gCheck, h0]
        · simp [cycleCheck, walk, gCheck, h0, h1]
  | succ fuel ih =>
    intro st
    cases st with
    | none => rfl
    | some c =>
      by_cases h0 : c = ""
      · simp [cycleCheck, walk, gCheck, h0]
      · by_cases h1 : c = id
        · subst h1; simp [cycleCheck, walk, gCheck, h0]
        · simp [cycleCheck, walk, gCheck, h0, h1, ih]

/-- The set of entity ids of a store. -/
def idsOf (s : Store) : Finset String := (s.map (fun w => w.id)).toFinset

theorem idsOf_card_le (s : Store) : (idsOf s).card ≤ s.length := by
  calc (idsOf s).card ≤ (s.map (fun w => w.id)).length := List.toFinset_card_le _
    _ = s.length := List.length_map _ _

theorem mem_idsOf_of_findWS {s : Store} {c : String} {w : Workstream}
    (h : findWS s c = some w) : c ∈ idsOf s := by
  have hmem := List.mem_of_find?_eq_some h
  have hpred := List.find?_some h
  have : w.id = c := by simpa using hpred
  subst this
  simp [idsOf]
  exact ⟨w, hmem, rfl⟩

/-- Acyclicity of a store's parent links: from any string, following
`parent_id` links reaches, in some finite number of hops, a string that names
no entity. -/
def Acyclic (s : Store) : Prop :=
  ∀ x : String, ∃ n, walk (gFollow s) (some x) n = some true

/-- All entity ids are nonempty (true of every id the generator emits; used to
align Python's `while current:` falsiness of `""` with entity lookup). -/
def IdsOK (s : Store) : Prop := ∀ w ∈ s, w.id ≠ ""

/-- A follow walk only answers `true`. -/
theorem gFollow_walk_true {s : Store} {st : Option String} {n : Nat} {r : Bool}
    (h : walk (gFollow s) st n = some r) : r = true := by
  obtain ⟨k, _, hex, _⟩ := walk_to_run n st h
  cases hst : runG (gFollow s) k st with
  | none => rw [hst] at hex; simpa [exitVal] using hex.symm
  | some c =>
    rw [hst] at hex
    cases hf : findWS s c with
    | none => simpa [exitVal, gFollow, hf] using hex.symm
    | some w => simp [exitVal, gFollow, hf] at hex

/-- Pointwise-equal step functions give equal walks. -/
theorem walk_congr {g g' : String → WStep} (h : ∀ c, g' c = g c) :
    ∀ (n : Nat) (st : Option String), walk g' st n = walk g st n := by
  intro n
  induction n with
  | zero =>
    intro st
    cases st with
    | none => rfl
    | some c => simp [walk, h c]
  | succ n ih =>
    intro st
    cases st with
    | none => rfl
    | some c =>
      rw [show walk g' (some c) (n + 1) = _ from rfl, show walk g (some c) (n + 1) = _ from rfl]
      simp only [walk, h c]
      cases g c with
      | exit b => rfl
      | go nxt => exact ih nxt

/-- If `g'` agrees with `g` away from `a` and no `g'` link ever points to `a`,
then a `g`-walk from a state other than `some a` transfers to `g'`. -/
theorem walk_avoid {g g' : String → WStep} {a : String}
    (heq : ∀ c, c ≠ a → g' c = g c)
    (hnota : ∀ c, g' c ≠ .go (some a)) :
    ∀ (n : Nat) (st : Option String), st ≠ some a →
      walk g st n = some true → ∃ m, walk g' st m = some true := by
  intro n
  induction n with
  | zero =>
    intro st hsta h
    cases st with
    | none => exact ⟨0, rfl⟩
    | some c =>
      have hc : c ≠ a := fun hca => hsta (by rw [hca])
      cases hg : g c with
      | exit b => exact ⟨0, by simp [walk, heq c hc, hg]; simpa [walk, hg] using h⟩
      | go nxt => simp [walk, hg] at h
  | succ n ih =>
    intro st hsta h
    cases st with
    | none => exact ⟨0, rfl⟩
    | some c =>
      have hc : c ≠ a := fun hca => hsta (by rw [hca])
      cases hg : g c with
      | exit b => exact ⟨0, by simp [walk, heq c hc, hg]; simpa [walk, hg] using h⟩
      | go nxt =>
        have hstep : walk g nxt n = some true := by simpa [walk, hg] using h
        have hnxt : nxt ≠ some a := by
          intro hna
          exact hnota c (by rw [heq c hc, hg, hna])
        obtain ⟨m, hm⟩ := ih nxt hnxt hstep
        exact ⟨m + 1, by simp [walk, heq c hc, hg]; exact hm⟩

/-- If `g'` agrees with `g` away from `a` and the `g'`-walk from `a`
terminates, then termination of every `g`-walk transfers to `g'`. -/
theorem walk_update_one {g g' : String → WStep} {a : String}
    (heq : ∀ c, c ≠ a → g' c = g c)
    (hta : ∃ m, walk g' (some a) m = some true) :
    ∀ (n : Nat) (st : Option String),
      walk g st n = some true → ∃ m, walk g' st m = some true := by
  intro n
  induction n with
  | zero =>
    intro st h
    cases st with
    | none => exact ⟨0, rfl⟩
    | some c =>
      by_cases hc : c = a
      · subst hc; exact hta
      · cases hg : g c with
        | exit b => exact ⟨0, by simp [walk, heq c hc, hg]; simpa [walk, hg] using h⟩
        | go nxt => simp [walk, hg] at h
  | succ n ih =>
    intro st h
    cases st with
    | none => exact ⟨0, rfl⟩
    | some c =>
      by_cases hc : c = a
      · subst hc; exact hta
      · cases hg : g c with
        | exit b => exact ⟨0, by simp [walk, heq c hc, hg]; simpa [walk, hg] using h⟩
        | go nxt =>
          have hstep : walk g nxt n = some true := by simpa [walk, hg] using h
          obtain ⟨m, hm⟩ := ih nxt hstep
          exact ⟨m + 1, by simp [walk, heq c hc, hg]; exact hm⟩

/-- A follow walk that terminates gives a cycle walk (same store, any target)
that terminates: the cycle walk has strictly more ways to stop. -/
theorem follow_to_check {s : Store} (id : String) :
    ∀ (n : Nat) (st : Option String),
      walk (gFollow s) st n = some true →
      ∃ m r, walk (gCheck s id) st m = some r := by
  intro n
  induction n with
  | zero =>
    intro st h
    cases st with
    | none => exact ⟨0, true, rfl⟩
    | some c =>
      by_cases h0 : c = ""
      · exact ⟨0, true, by simp [walk, gCheck, h0]⟩
      · by_cases h1 : c = id
        · exact ⟨0, false, by subst h1; simp [walk, gCheck, h0]⟩
        · cases hf : findWS s c with
          | none =>
            exact ⟨1, true, by simp [walk, gCheck, h0, h1, hf]⟩
          | some w => simp [walk, gFollow, hf] at h
  | succ n ih =>
    intro st h
    cases st with
    | none => exact ⟨0, true, rfl⟩
    | some c =>
      by_cases h0 : c = ""
      · exact ⟨0, true, by simp [walk, gCheck, h0]⟩
      · by_cases h1 : c = id
        · exact ⟨0, false, by subst h1; simp [walk, gCheck, h0]⟩
        · cases hf : findWS s c with
          | none =>
            exact ⟨1, true, by simp [walk, gCheck, h0, h1, hf]⟩
          | some w =>
            have hstep : walk (gFollow s) w.parent_id n = some true := by
              simpa [walk, gFollow, hf] using h
            obtain ⟨m, r, hm⟩ := ih w.parent_id hstep
            exact ⟨m + 1, r, by simp [walk, gCheck, h0, h1, hf]; exact hm⟩

/-- An accepting cycle walk on `s` transfers to a follow walk on any store
`s'` that agrees with `s` away from `id` and has no entity named `""`. -/
theorem check_accept_to_follow {s s' : Store} {id : String}
    (hempty : findWS s' "" = none)
    (heq : ∀ c, c ≠ id → gFollow s' c = gFollow s c) :
    ∀ (n : Nat) (st : Option String),
      walk (gCheck s id) st n = some true →
      ∃ m, walk (gFollow s') st m = some true := by
  intro n
  induction n with
  | zero =>
    intro st h
    cases st with
    | none => exact ⟨0, rfl⟩
    | some c =>
      by_cases h0 : c = ""
      · exact ⟨0, by subst h0; simp [walk, gFollow, hempty]⟩
      · by_cases h1 : c = id
        · subst h1; simp [walk, gCheck, h0] at h
        · simp [walk, gCheck, h0, h1] at h
  | succ n ih =>
    intro st h
    cases st with
    | none => exact ⟨0, rfl⟩
    | some c =>
      by_cases h0 : c = ""
      · exact ⟨0, by subst h0; simp [walk, gFollow, hempty]⟩
      · by_cases h1 : c = id
        · subst h1; simp [walk, gCheck, h0] at h
        · have hstep : walk (gCheck s id) ((findWS s c).bind (fun w => w.parent_id)) n = some true := by
            simpa [walk, gCheck, h0, h1] using h
          obtain ⟨m, hm⟩ := ih _ hstep
          have hgc : gFollow s' c = gFollow s c := heq c h1
          cases hf : findWS s c with
          | none =>
            have hex : gFollow s' c = .exit true := by rw [hgc]; simp [gFollow, hf]
            exact ⟨0, by simp [walk, hex]⟩
          | some w =>
            refine ⟨m + 1, ?_⟩
            have : gFollow s' c = .go w.parent_id := by rw [hgc]; simp [gFollow, hf]
            simp [walk, this]
            simpa [hf] using hm

/-! ### Lookup lemmas for the store primitives -/

theorem findWS_nil (c : String) : findWS [] c = none := rfl

theorem findWS_id {s : Store} {c : String} {w : Workstream}
    (h : findWS s c = some w) : w.id = c := by
  simpa using List.find?_some h

theorem findWS_mem {s : Store} {c : String} {w : Workstream}
    (h : findWS s c = some w) : w ∈ s := List.mem_of_find?_eq_some h

theorem find?_map_pres {α : Type} (p : α → Bool) (f : α → α)
    (hf : ∀ a, p (f a) = p a) :
    ∀ l : List α, List.find? p (l.map f) = (List.find? p l).map f := by
  intro l
  induction l with
  | nil => rfl
  | cons a l ih =>
    cases hp : p a
    · rw [List.map_cons, List.find?_cons_of_neg _ (by simp [hf a, hp]),
        List.find?_cons_of_neg _ (by simp [hp])]
      exact ih
    · rw [List.map_cons, List.find?_cons_of_pos _ (by simp [hf a, hp]),
        List.find?_cons_of_pos _ (by simp [hp])]
      rfl

theorem findWS_replace (s : Store) (id : String) (w' : Workstream)
    (hid : w'.id = id) (c : String) :
    findWS (replaceWS s id w') c =
      (findWS s c).map (fun w => if w.id == id then w' else w) := by
  apply find?_map_pres
  intro a
  by_cases h : a.id = id
  · simp [h, hid]
  · simp [h]

theorem findWS_append (s : Store) (w : Workstream) (c : String) :
    findWS (s ++ [w]) c =
      match findWS s c with
      | some x => some x
      | none => if w.id = c then some w else none := by
  induction s with
  | nil =>
    show List.find? (fun x => x.id == c) [w] = if w.id = c then some w else none
    by_cases h : w.id = c
    · rw [List.find?_cons_of_pos _ (by simp [h]), if_pos h]
    · rw [List.find?_cons_of_neg _ (by simp [h]), if_neg h]
      rfl
  | cons a s ih =>
    cases hp : (a.id == c)
    · show List.find? _ (a :: (s ++ [w])) = _
      rw [List.find?_cons_of_neg _ (by simp [hp])]
      show findWS (s ++ [w]) c = _
      rw [ih]
      show _ = match List.find? _ (a :: s) with
        | some x => some x
        | none => if w.id = c then some w else none
      rw [List.find?_cons_of_neg _ (by simp [hp])]
      rfl
    · show List.find? _ (a :: (s ++ [w])) = _
      rw [List.find?_cons_of_pos _ (by simp [hp])]
      show _ = match List.find? _ (a :: s) with
        | some x => some x
        | none => if w.id = c then some w else none
      rw [List.find?_cons_of_pos _ (by simp [hp])]

theorem findWS_filter_out (s : Store) (id c : String) :
    findWS (s.filter (fun w => !(w.id == id))) c =
      if c = id then none else findWS s c := by
  by_cases hci : c = id
  · subst hci
    rw [if_pos rfl]
    refine List.find?_eq_none.mpr ?_
    intro x hx
    have hkept := (List.mem_filter.mp hx).2
    simp at hkept
    simp [hkept]
  · rw [if_neg hci]
    induction s with
    | nil => rfl
    | cons a s ih =>
      by_cases hai : a.id = id
      · have hdrop : List.filter (fun w => !(w.id == id)) (a :: s) =
            List.filter (fun w => !(w.id == id)) s := by
          simp [List.filter_cons, hai]
        have hpred : (a.id == c) = false := by
          simp
          intro h
          exact hci (h ▸ hai)
        rw [hdrop, ih]
        show findWS s c = findWS (a :: s) c
        show _ = List.find? _ (a :: s)
        rw [List.find?_cons_of_neg _ (by simp [hpred])]
        rfl
      · have hkeep : List.filter (fun w => !(w.id == id)) (a :: s) =
            a :: List.filter (fun w => !(w.id == id)) s := by
          simp [List.filter_cons, hai]
        rw [hkeep]
        cases hp : (a.id == c)
        · show List.find? _ (a :: _) = List.find? _ (a :: s)
          rw [List.find?_cons_of_neg _ (by simp [hp]),
            List.find?_cons_of_neg _ (by simp [hp])]
          exact ih
        · show List.find? _ (a :: _) = List.find? _ (a :: s)
          rw [List.find?_cons_of_pos _ (by simp [hp]),
            List.find?_cons_of_pos _ (by simp [hp])]

/-! ### Per-operation facts about the follow-walk step function -/

theorem applyUpdate_id (w : Workstream) (req : UpdateWorkstreamRequest) :
    (applyUpdate w req).id = w.id := by
  unfold applyUpdate
  cases req.name <;> cases req.summary <;> cases req.tags <;>
    cases req.metadata <;> cases req.parent_id <;> simp

theorem applyUpdate_parent_of_none (w : Workstream) (req : UpdateWorkstreamRequest)
    (h : req.parent_id = none) : (applyUpdate w req).parent_id = w.parent_id := by
  unfold applyUpdate
  rw [h]
  cases req.name <;> cases req.summary <;> cases req.tags <;>
    cases req.metadata <;> simp

theorem applyUpdate_parent_of_some (w : Workstream) (req : UpdateWorkstreamRequest)
    (p : String) (h : req.parent_id = some p) :
    (applyUpdate w req).parent_id = if p = "" then none else some p := by
  unfold applyUpdate
  rw [h]

theorem gFollow_replace_ne {s : Store} {id : String} {w' : Workstream}
    (hid : w'.id = id) {c : String} (hc : c ≠ id) :
    gFollow (replaceWS s id w') c = gFollow s c := by
  unfold gFollow
  rw [findWS_replace s id w' hid c]
  cases hf : findWS s c with
  | none => rfl
  | some x =>
    have hx : x.id = c := findWS_id hf
    have hxid : x.id ≠ id := by rw [hx]; exact hc
    simp [hxid]

theorem gFollow_replace_self {s : Store} {id : String} {w w' : Workstream}
    (hid : w'.id = id) (hf : findWS s id = some w) :
    gFollow (replaceWS s id w') id = .go w'.parent_id := by
  unfold gFollow
  rw [findWS_replace s id w' hid id, hf]
  have hw : w.id = id := findWS_id hf
  simp [hw]

theorem gFollow_replace_congr {s : Store} {id : String} {w w' : Workstream}
    (hid : w'.id = id) (hf : findWS s id = some w)
    (hpar : w'.parent_id = w.parent_id) (c : String) :
    gFollow (replaceWS s id w') c = gFollow s c := by
  by_cases hc : c = id
  · subst hc
    rw [gFollow_replace_self hid hf, hpar]
    unfold gFollow
    rw [hf]
  · exact gFollow_replace_ne hid hc

theorem gFollow_append_ne {s : Store} {w : Workstream} {c : String}
    (hc : c ≠ w.id) : gFollow (s ++ [w]) c = gFollow s c := by
  unfold gFollow
  rw [findWS_append]
  cases hf : findWS s c with
  | none => rw [if_neg (fun h => hc h.symm)]
  | some x => rfl

theorem gFollow_append_self {s : Store} {w : Workstream}
    (hf : findWS s w.id = none) :
    gFollow (s ++ [w]) w.id = .go w.parent_id := by
  unfold gFollow
  rw [findWS_append, hf]
  simp

theorem gFollow_filter_ne {s : Store} {id c : String} (hc : c ≠ id) :
    gFollow (s.filter (fun w => !(w.id == id))) c = gFollow s c := by
  unfold gFollow
  rw [findWS_filter_out, if_neg hc]

theorem gFollow_filter_self (s : Store) (id : String) :
    gFollow (s.filter (fun w => !(w.id == id))) id = .exit true := by
  unfold gFollow
  rw [findWS_filter_out, if_pos rfl]

/-- A store with all ids nonempty has no entity named `""`. -/
theorem findWS_empty_of_idsOK {s : Store} (h : IdsOK s) : findWS s "" = none := by
  cases hf : findWS s "" with
  | none => rfl
  | some w =>
    exact absurd (findWS_id hf) (h w (findWS_mem hf))

theorem idsOK_replace {s : Store} {id : String} {w' : Workstream}
    (h : IdsOK s) (hw' : w'.id ≠ "") : IdsOK (replaceWS s id w') := by
  intro x hx
  obtain ⟨y, hy, hfy⟩ := List.mem_map.mp hx
  by_cases hyi : (y.id == id) = true
  · rw [← hfy]; simpa [hyi] using hw'
  · rw [← hfy]; simp at hyi; simpa [hyi] using h y hy

/-! ### Reachability and the acyclicity invariant -/

/-- States reachable from the empty store through the storage operations.  The
hypotheses on the `create` step record what `_generate_id` provides: a fresh
`ws-<epoch-millis>-<9-random-chars>` id is nonempty, differs from every stored
id, and differs from every parent reference chosen before it was drawn. -/
inductive Reachable : Store → Prop where
  | empty : Reachable []
  | createStep (s : Store) (req : CreateWorkstreamRequest) (new_id now : String) :
      Reachable s → new_id ≠ "" → findWS s new_id = none →
      (∀ w ∈ s, w.parent_id ≠ some new_id) → req.parent_id ≠ some new_id →
      Reachable (create s req new_id now).1
  | updateStep (s : Store) (req : UpdateWorkstreamRequest) (now : String) :
      Reachable s → Reachable (update s req now).1
  | addTagsStep (s : Store) (id : String) (tags : List String) (now : String) :
      Reachable s → Reachable (add_tags s id tags now).1
  | addNoteStep (s : Store) (id note now : String) :
      Reachable s → Reachable (add_note s id note now).1
  | setParentStep (s : Store) (id : String) (pid : Option String) (now : String) :
      Reachable s → Reachable (set_parent s id pid now).1
  | deleteStep (s : Store) (id : String) :
      Reachable s → Reachable (delete s id).1

/-- Reachability restricted to histories in which no `update` request carries a
non-empty `parent_id` (parent reassignment goes through `set_parent`, the only
path with the cycle check); `update` may still omit or clear the parent. -/
inductive ReachableNP : Store → Prop where
  | empty : ReachableNP []
  | createStep (s : Store) (req : CreateWorkstreamRequest) (new_id now : String) :
      ReachableNP s → new_id ≠ "" → findWS s new_id = none →
      (∀ w ∈ s, w.parent_id ≠ some new_id) → req.parent_id ≠ some new_id →
      ReachableNP (create s req new_id now).1
  | updateStep (s : Store) (req : UpdateWorkstreamRequest) (now : String) :
      ReachableNP s → (req.parent_id = none ∨ req.parent_id = some "") →
      ReachableNP (update s req now).1
  | addTagsStep (s : Store) (id : String) (tags : List String) (now : String) :
      ReachableNP s → ReachableNP (add_tags s id tags now).1
  | addNoteStep (s : Store) (id note now : String) :
      ReachableNP s → ReachableNP (add_note s id note now).1
  | setParentStep (s : Store) (id : String) (pid : Option String) (now : String) :
      ReachableNP s → ReachableNP (set_parent s id pid now).1
  | deleteStep (s : Store) (id : String) :
      ReachableNP s → ReachableNP (delete s id).1

/-! ### Preservation of the acyclicity invariant -/

theorem idsOK_nil : IdsOK [] := by
  intro w hw
  simp at hw

theorem acyclic_nil : Acyclic [] := by
  intro x
  exact ⟨0, by simp [walk, gFollow, findWS_nil]⟩

theorem idsOK_replace_found {s : Store} {i : String} {w w' : Workstream}
    (hok : IdsOK s) (hf : findWS s i = some w) (hid : w'.id = i) :
    IdsOK (replaceWS s i w') := by
  refine idsOK_replace hok ?_
  rw [hid, ← findWS_id hf]
  exact hok w (findWS_mem hf)

theorem acyclic_replace_keep {s : Store} (hA : Acyclic s) {i : String}
    {w w' : Workstream} (hf : findWS s i = some w) (hid : w'.id = i)
    (hpar : w'.parent_id = w.parent_id) : Acyclic (replaceWS s i w') := by
  intro x
  obtain ⟨n, hn⟩ := hA x
  refine ⟨n, ?_⟩
  rw [walk_congr (fun c => gFollow_replace_congr hid hf hpar c) n (some x)]
  exact hn

theorem idsOK_create {s : Store} (hok : IdsOK s) (req : CreateWorkstreamRequest)
    {new_id : String} (hne : new_id ≠ "") (now : String) :
    IdsOK (create s req new_id now).1 := by
  intro x hx
  simp only [create] at hx
  rcases List.mem_append.mp hx with hx | hx
  · exact hok x hx
  · have hxw : x = (create s req new_id now).2 := by simpa using hx
    rw [hxw]
    exact hne

theorem acyclic_create {s : Store} (hA : Acyclic s) (req : CreateWorkstreamRequest)
    {new_id : String} (now : String)
    (hfresh : findWS s new_id = none)
    (hnoref : ∀ w ∈ s, w.parent_id ≠ some new_id)
    (hreq : req.parent_id ≠ some new_id) :
    Acyclic (create s req new_id now).1 := by
  set wN := (create s req new_id now).2 with hwN
  have hs' : (create s req new_id now).1 = s ++ [wN] := rfl
  have hwid : wN.id = new_id := rfl
  have hwpar : wN.parent_id = req.parent_id := rfl
  rw [hs']
  have heq : ∀ c, c ≠ new_id → gFollow (s ++ [wN]) c = gFollow s c := by
    intro c hcne
    exact gFollow_append_ne (by rw [hwid]; exact hcne)
  have hnota : ∀ c, gFollow (s ++ [wN]) c ≠ .go (some new_id) := by
    intro c hgo
    unfold gFollow at hgo
    cases hfc : findWS (s ++ [wN]) c with
    | none => rw [hfc] at hgo; exact absurd hgo (by simp)
    | some x =>
      rw [hfc] at hgo
      have hxp : x.parent_id = some new_id := by simpa using hgo
      have hxmem := findWS_mem hfc
      rcases List.mem_append.mp hxmem with hx | hx
      · exact hnoref x hx hxp
      · have hxw : x = wN := by simpa using hx
        rw [hxw, hwpar] at hxp
        exact hreq hxp
  intro x
  by_cases hx : x = new_id
  · rw [hx]
    have hstep : gFollow (s ++ [wN]) new_id = .go wN.parent_id := by
      have h := gFollow_append_self (s := s) (w := wN) (by rw [hwid]; exact hfresh)
      rw [hwid] at h
      exact h
    cases hp : wN.parent_id with
    | none => exact ⟨1, by simp [walk, hstep, hp]⟩
    | some p =>
      have hpne : p ≠ new_id := by
        intro hpe
        rw [hp, hpe] at hwpar
        exact hreq hwpar.symm
      obtain ⟨n, hn⟩ := hA p
      obtain ⟨m, hm⟩ := walk_avoid heq hnota n (some p) (by simpa using hpne) hn
      refine ⟨m + 1, ?_⟩
      have hred : walk (gFollow (s ++ [wN])) (some new_id) (m + 1)
          = walk (gFollow (s ++ [wN])) wN.parent_id m := by
        rw [walk_go_succ m (by simp [exitVal, hstep])]
        simp [stepG, hstep]
      rw [hred, hp]
      exact hm
  · obtain ⟨n, hn⟩ := hA x
    exact walk_avoid heq hnota n (some x) (by simpa using hx) hn

theorem idsOK_update {s : Store} (hok : IdsOK s) (req : UpdateWorkstreamRequest)
    (now : String) : IdsOK (update s req now).1 := by
  cases hf : findWS s req.id with
  | none => simpa [update, hf] using hok
  | some w =>
    have hs' : (update s req now).1 =
        replaceWS s req.id { applyUpdate w req with updated_at := now } := by
      simp [update, hf]
    rw [hs']
    refine idsOK_replace_found hok hf ?_
    show (applyUpdate w req).id = req.id
    rw [applyUpdate_id]
    exact findWS_id hf

theorem acyclic_update {s : Store} (hA : Acyclic s) (req : UpdateWorkstreamRequest)
    (now : String) (hp : req.parent_id = none ∨ req.parent_id = some "") :
    Acyclic (update s req now).1 := by
  cases hf : findWS s req.id with
  | none =>
    have hs' : (update s req now).1 = s := by simp [update, hf]
    rw [hs']
    exact hA
  | some w =>
    have hs' : (update s req now).1 =
        replaceWS s req.id { applyUpdate w req with updated_at := now } := by
      simp [update, hf]
    rw [hs']
    have hid6 : ({ applyUpdate w req with updated_at := now } : Workstream).id = req.id := by
      show (applyUpdate w req).id = req.id
      rw [applyUpdate_id]
      exact findWS_id hf
    rcases hp with hp | hp
    · refine acyclic_replace_keep hA hf hid6 ?_
      show (applyUpdate w req).parent_id = w.parent_id
      exact applyUpdate_parent_of_none w req hp
    · have hpar : ({ applyUpdate w req with updated_at := now } : Workstream).parent_id = none := by
        show (applyUpdate w req).parent_id = none
        rw [applyUpdate_parent_of_some w req "" hp]
        simp
      have hta : ∃ m, walk (gFollow (replaceWS s req.id
          { applyUpdate w req with updated_at := now })) (some req.id) m = some true := by
        have hstep := gFollow_replace_self hid6 hf
        rw [hpar] at hstep
        exact ⟨1, by simp [walk, hstep]⟩
      intro x
      obtain ⟨n, hn⟩ := hA x
      exact walk_update_one (fun c hc => gFollow_replace_ne hid6 hc) hta n (some x) hn

theorem idsOK_add_tags {s : Store} (hok : IdsOK s) (id : String)
    (tags : List String) (now : String) : IdsOK (add_tags s id tags now).1 := by
  cases hf : findWS s id with
  | none => simpa [add_tags, hf] using hok
  | some w =>
    have hs' : (add_tags s id tags now).1 = replaceWS s id
        { w with tags := (w.tags ++ tags).dedup, updated_at := now } := by
      simp [add_tags, hf]
    rw [hs']
    refine idsOK_replace_found hok hf ?_
    show w.id = id
    exact findWS_id hf

theorem acyclic_add_tags {s : Store} (hA : Acyclic s) (id : String)
    (tags : List String) (now : String) : Acyclic (add_tags s id tags now).1 := by
  cases hf : findWS s id with
  | none => simpa [add_tags, hf] using hA
  | some w =>
    have hs' : (add_tags s id tags now).1 = replaceWS s id
        { w with tags := (w.tags ++ tags).dedup, updated_at := now } := by
      simp [add_tags, hf]
    rw [hs']
    refine acyclic_replace_keep hA hf ?_ rfl
    show w.id = id
    exact findWS_id hf

theorem idsOK_add_note {s : Store} (hok : IdsOK s) (id note now : String) :
    IdsOK (add_note s id note now).1 := by
  cases hf : findWS s id with
  | none => simpa [add_note, hf] using hok
  | some w =>
    have hs' : (add_note s id note now).1 = replaceWS s id
        { w with notes := w.notes ++ ["[" ++ now ++ "] " ++ note], updated_at := now } := by
      simp [add_note, hf]
    rw [hs']
    refine idsOK_replace_found hok hf ?_
    show w.id = id
    exact findWS_id hf

theorem acyclic_add_note {s : Store} (hA : Acyclic s) (id note now : String) :
    Acyclic (add_note s id note now).1 := by
  cases hf : findWS s id with
  | none => simpa [add_note, hf] using hA
  | some w =>
    have hs' : (add_note s id note now).1 = replaceWS s id
        { w with notes := w.notes ++ ["[" ++ now ++ "] " ++ note], updated_at := now } := by
      simp [add_note, hf]
    rw [hs']
    refine acyclic_replace_keep hA hf ?_ rfl
    show w.id = id
    exact findWS_id hf

theorem idsOK_delete {s : Store} (hok : IdsOK s) (id : String) :
    IdsOK (delete s id).1 := by
  by_cases hf : (findWS s id).isSome
  · have hs' : (delete s id).1 = s.filter (fun w => !(w.id == id)) := by
      simp [delete, hf]
    rw [hs']
    intro x hx
    exact hok x (List.mem_of_mem_filter hx)
  · have hs' : (delete s id).1 = s := by simp [delete, hf]
    rw [hs']
    exact hok

theorem acyclic_delete {s : Store} (hA : Acyclic s) (id : String) :
    Acyclic (delete s id).1 := by
  by_cases hf : (findWS s id).isSome
  · have hs' : (delete s id).1 = s.filter (fun w => !(w.id == id)) := by
      simp [delete, hf]
    rw [hs']
    have hta : ∃ m, walk (gFollow (s.filter (fun w => !(w.id == id)))) (some id) m
        = some true := by
      refine ⟨0, walk_of_exitVal ?_ 0⟩
      simp [exitVal, gFollow_filter_self]
    intro x
    obtain ⟨n, hn⟩ := hA x
    exact walk_update_one (fun c hc => gFollow_filter_ne hc) hta n (some x) hn
  · have hs' : (delete s id).1 = s := by simp [delete, hf]
    rw [hs']
    exact hA

theorem idsOK_set_parent {s : Store} (hok : IdsOK s) (id : String)
    (pid : Option String) (now : String) : IdsOK (set_parent s id pid now).1 := by
  cases hf : findWS s id with
  | none => simpa [set_parent, hf] using hok
  | some w =>
    cases hg : (truthy pid && (findWS s (pid.getD "")).isNone) with
    | true => simpa [set_parent, hf, hg] using hok
    | false =>
      cases ht : truthy pid with
      | false =>
        have hs' : (set_parent s id pid now).1 =
            replaceWS s id { w with parent_id := pid, updated_at := now } := by
          simp [set_parent, hf, hg, ht]
        rw [hs']
        refine idsOK_replace_found hok hf ?_
        show w.id = id
        exact findWS_id hf
      | true =>
        have hfind : ¬ findWS s (pid.getD "") = none := by
          rw [ht] at hg
          simp at hg
          exact Option.isSome_iff_ne_none.mp hg
        cases hcc : cycleCheck s id pid (s.length + 1) with
        | none => simpa [set_parent, hf, hg, ht, hcc, hfind] using hok
        | some b =>
          cases b with
          | false => simpa [set_parent, hf, hg, ht, hcc, hfind] using hok
          | true =>
            have hs' : (set_parent s id pid now).1 =
                replaceWS s id { w with parent_id := pid, updated_at := now } := by
              simp [set_parent, hf, hg, ht, hcc, hfind]
            rw [hs']
            refine idsOK_replace_found hok hf ?_
            show w.id = id
            exact findWS_id hf

theorem acyclic_set_parent {s : Store} (hA : Acyclic s) (hok : IdsOK s)
    (id : String) (pid : Option String) (now : String) :
    Acyclic (set_parent s id pid now).1 := by
  cases hf : findWS s id with
  | none => simpa [set_parent, hf] using hA
  | some w =>
    set w' : Workstream := { w with parent_id := pid, updated_at := now } with hw'
    have hid' : w'.id = id := by
      rw [hw']
      show w.id = id
      exact findWS_id hf
    have hok' : IdsOK (replaceWS s id w') := idsOK_replace_found hok hf hid'
    have hempty' : findWS (replaceWS s id w') "" = none := findWS_empty_of_idsOK hok'
    have heq : ∀ c, c ≠ id → gFollow (replaceWS s id w') c = gFollow s c :=
      fun c hc => gFollow_replace_ne hid' hc
    have hstep : gFollow (replaceWS s id w') id = .go pid :=
      gFollow_replace_self hid' hf
    have h2 : stepG (gFollow (replaceWS s id w')) (some id) = pid := by
      simp [stepG, hstep]
    have hA' : (∃ m, walk (gFollow (replaceWS s id w')) (some id) m = some true) →
        Acyclic (replaceWS s id w') := by
      intro hta x
      obtain ⟨n, hn⟩ := hA x
      exact walk_update_one heq hta n (some x) hn
    cases hg : (truthy pid && (findWS s (pid.getD "")).isNone) with
    | true => simpa [set_parent, hf, hg] using hA
    | false =>
      cases ht : truthy pid with
      | false =>
        have hs' : (set_parent s id pid now).1 = replaceWS s id w' := by
          rw [hw']
          simp [set_parent, hf, hg, ht]
        rw [hs']
        refine hA' ?_
        have hpe : pid = none ∨ pid = some "" := by
          cases pid with
          | none => exact Or.inl rfl
          | some p =>
            refine Or.inr ?_
            rw [show truthy (some p) = !p.isEmpty from rfl] at ht
            simp at ht
            have hpemp : p = "" := by simpa [String.isEmpty_iff] using ht
            rw [hpemp]
        rcases hpe with hpe | hpe
        · refine ⟨1, ?_⟩
          rw [walk_go_succ 0 (by simp [exitVal, hstep]), h2, hpe]
          rfl
        · refine ⟨1, ?_⟩
          rw [walk_go_succ 0 (by simp [exitVal, hstep]), h2, hpe]
          exact walk_of_exitVal (by simp [exitVal, gFollow, hempty']) 0
      | true =>
        have hfind : ¬ findWS s (pid.getD "") = none := by
          rw [ht] at hg
          simp at hg
          exact Option.isSome_iff_ne_none.mp hg
        cases hcc : cycleCheck s id pid (s.length + 1) with
        | none => simpa [set_parent, hf, hg, ht, hcc, hfind] using hA
        | some b =>
          cases b with
          | false => simpa [set_parent, hf, hg, ht, hcc, hfind] using hA
          | true =>
            have hs' : (set_parent s id pid now).1 = replaceWS s id w' := by
              rw [hw']
              simp [set_parent, hf, hg, ht, hcc, hfind]
            rw [hs']
            refine hA' ?_
            have hcw : walk (gCheck s id) pid (s.length + 1) = some true := by
              rw [← cycleCheck_eq_walk]
              exact hcc
            obtain ⟨m, hm⟩ := check_accept_to_follow hempty' heq (s.length + 1) pid hcw
            refine ⟨m + 1, ?_⟩
            rw [walk_go_succ m (by simp [exitVal, hstep]), h2]
            exact hm

/-- Every state reachable without parent reassignment through `update` has
nonempty ids and acyclic parent links. -/
theorem reachableNP_inv {s : Store} (h : ReachableNP s) : IdsOK s ∧ Acyclic s := by
  induction h with
  | empty => exact ⟨idsOK_nil, acyclic_nil⟩
  | createStep s req new_id now _ hne hfresh hnoref hreq ih =>
    exact ⟨idsOK_create ih.1 req hne now, acyclic_create ih.2 req now hfresh hnoref hreq⟩
  | updateStep s req now _ hp ih =>
    exact ⟨idsOK_update ih.1 req now, acyclic_update ih.2 req now hp⟩
  | addTagsStep s id tags now _ ih =>
    exact ⟨idsOK_add_tags ih.1 id tags now, acyclic_add_tags ih.2 id tags now⟩
  | addNoteStep s id note now _ ih =>
    exact ⟨idsOK_add_note ih.1 id note now, acyclic_add_note ih.2 id note now⟩
  | setParentStep s id pid now _ ih =>
    exact ⟨idsOK_set_parent ih.1 id pid now, acyclic_set_parent ih.2 ih.1 id pid now⟩
  | deleteStep s id _ ih =>
    exact ⟨idsOK_delete ih.1 id, acyclic_delete ih.2 id⟩

/-! ### Bounded evaluation of the two walks -/

theorem gFollow_go_mem {s : Store} {c : String} {nxt : Option String}
    (hc : gFollow s c = .go nxt) : c ∈ idsOf s := by
  unfold gFollow at hc
  cases hf : findWS s c with
  | none => rw [hf] at hc; exact absurd hc (by simp)
  | some x => exact mem_idsOf_of_findWS hf

theorem gCheck_go_mem {s : Store} {id c x : String}
    (hc : gCheck s id c = .go (some x)) : c ∈ idsOf s := by
  unfold gCheck at hc
  by_cases h0 : c = ""
  · rw [if_pos h0] at hc; exact absurd hc (by simp)
  · by_cases h1 : c = id
    · rw [if_neg h0, if_pos h1] at hc; exact absurd hc (by simp)
    · rw [if_neg h0, if_neg h1] at hc
      have hbind : (findWS s c).bind (fun w => w.parent_id) = some x := by
        simpa using hc
      cases hf : findWS s c with
      | none => rw [hf] at hbind; exact absurd hbind (by simp)
      | some w => exact mem_idsOf_of_findWS hf

/-- Completeness of the bounded evaluation used in `set_parent`: if the
source's unbounded ancestor loop terminates at all, fuel `s.length + 1`
already returns the same verdict, so `none` at that fuel is genuine
divergence of the source loop. -/
theorem cycleCheck_complete {s : Store} {id : String} {st : Option String}
    {n : Nat} {r : Bool} (h : cycleCheck s id st n = some r) :
    cycleCheck s id st (s.length + 1) = some r := by
  rw [cycleCheck_eq_walk] at h ⊢
  have hb := walk_complete_lax (gCheck s id) (idsOf s)
    (fun c x hc => gCheck_go_mem hc) h
  exact walk_mono hb (by have := idsOf_card_le s; omega)

/-! ### Demonstration stores used by witnesses and counterexamples -/

/-- A minimal creation request. -/
def reqA : CreateWorkstreamRequest :=
  { name := "A", summary := "", tags := [], metadata := none, parent_id := none }

def demoS1 : Store := (create [] reqA "w1" "t0").1

def demoS2 : Store := (create demoS1 reqA "w2" "t1").1

def demoS3 : Store := (set_parent demoS2 "w2" (some "w1") "t2").1

/-- The `w2` entity of `demoS3` after its parent was set to `w1`. -/
def demoW2 : Workstream :=
  { id := "w2", name := "A", summary := "", tags := [], metadata := [],
    notes := [], parent_id := some "w1", created_at := "t1", updated_at := "t2" }

/-- Update request that reassigns `w1`'s parent to itself. -/
def selfParentReq : UpdateWorkstreamRequest :=
  { id := "w1", name := none, summary := none, tags := none, metadata := none,
    parent_id := some "w1" }

def selfLoopS : Store := (update demoS1 selfParentReq "t1").1

/-- The self-referential entity stored by `selfLoopS`. -/
def selfLoopW : Workstream :=
  { id := "w1", name := "A", summary := "", tags := [], metadata := [],
    notes := [], parent_id := some "w1", created_at := "t0", updated_at := "t1" }

/-- An entity used to assemble corrupted stores directly. -/
def rawWS (i : String) (p : Option String) : Workstream :=
  { id := i, name := i, summary := "", tags := [], metadata := [],
    notes := [], parent_id := p, created_at := "t", updated_at := "t" }

/-- A store whose persisted parent links already contain a two-cycle. -/
def corruptS : Store :=
  [rawWS "A" (some "B"), rawWS "B" (some "A"), rawWS "C" none]

/-! ### C1 -/

/-- C1 (amended): in every state reachable from the empty store by
create/update/add_tags/add_note/set_parent/delete where every update request
leaves the parent untouched or clears it (the source's `update` performs no
cycle check, so parent reassignment is excluded there and goes through
`set_parent`), following `parent_id` links from any stored entity terminates
within entity-count hops. -/
theorem C1_acyclicity_invariant (s : Store) (h : ReachableNP s)
    (w : Workstream) (_hw : w ∈ s) :
    walk (gFollow s) (some w.id) s.length = some true := by
  obtain ⟨hok, hA⟩ := reachableNP_inv h
  obtain ⟨n, hn⟩ := hA w.id
  have hb := walk_complete_strict (gFollow s) (idsOf s)
    (fun c nxt hc => gFollow_go_mem hc) hn
  exact walk_mono hb (idsOf_card_le s)

theorem C1_acyclicity_invariant_witness :
    walk (gFollow demoS3) (some demoW2.id) demoS3.length = some true := by
  have hr : ReachableNP demoS3 :=
    ReachableNP.setParentStep demoS2 "w2" (some "w1") "t2"
      (ReachableNP.createStep demoS1 reqA "w2" "t1"
        (ReachableNP.createStep [] reqA "w1" "t0" ReachableNP.empty
          (by decide) (by decide) (by decide) (by decide))
        (by decide) (by decide) (by decide) (by decide))
  exact C1_acyclicity_invariant demoS3 hr demoW2 (by decide)

/-- C1 counterexample: the claim as stated is false — `update` performs no
cycle check on a non-empty `parent_id` (storage.py:120-122 assigns directly),
so a reachable state contains an entity whose parent chain never terminates:
create `w1`, then update `w1` with `parent_id = "w1"`.  The walk from `w1` is
still unfinished after entity-count hops. -/
theorem C1_counterexample :
    Reachable selfLoopS ∧ selfLoopW ∈ selfLoopS ∧
      walk (gFollow selfLoopS) (some selfLoopW.id) selfLoopS.length = none := by
  refine ⟨?_, by decide, by decide⟩
  exact Reachable.updateStep demoS1 selfParentReq "t1"
    (Reachable.createStep [] reqA "w1" "t0" Reachable.empty
      (by decide) (by decide) (by decide) (by decide))

/-! ### C5 -/

/-- C5 (amended): the ancestor walk of `set_parent` was claimed to carry an
entity-count bound guaranteeing termination even on corrupted data; the source
loop (storage.py:216-223) carries no bound, and on a store whose parent links
are already cyclic it diverges.  What is true: whenever the store's parent
links are acyclic, the walk from any candidate parent reaches a verdict after
following at most entity-count + 1 links (the `+ 1` crosses a dangling
reference just before the walk falls off the chain). -/
theorem C5_cycle_walk_bound (s : Store) (h : Acyclic s) (id : String)
    (pid : Option String) : cycleCheck s id pid (s.length + 1) ≠ none := by
  cases pid with
  | none => simp [cycleCheck]
  | some p =>
    obtain ⟨n, hn⟩ := h p
    obtain ⟨m, r, hm⟩ := follow_to_check id n (some p) hn
    intro hnone
    rw [cycleCheck_eq_walk] at hnone
    have hb := walk_complete_lax (gCheck s id) (idsOf s)
      (fun c x hc => gCheck_go_mem hc) hm
    have hfin : walk (gCheck s id) (some p) (s.length + 1) = some r :=
      walk_mono hb (by have := idsOf_card_le s; omega)
    rw [hnone] at hfin
    exact absurd hfin (by simp)

theorem C5_cycle_walk_bound_witness :
    cycleCheck demoS3 "w9" (some "w1") (demoS3.length + 1) ≠ none := by
  have hr : ReachableNP demoS3 :=
    ReachableNP.setParentStep demoS2 "w2" (some "w1") "t2"
      (ReachableNP.createStep demoS1 reqA "w2" "t1"
        (ReachableNP.createStep [] reqA "w1" "t0" ReachableNP.empty
          (by decide) (by decide) (by decide) (by decide))
        (by decide) (by decide) (by decide) (by decide))
  exact C5_cycle_walk_bound demoS3 (reachableNP_inv hr).2 "w9" (some "w1")

/-- C5 counterexample: on a corrupted store with a persisted two-cycle
(`A ↔ B`, plus `C`), the walk for `set_parent(C, A)` has no verdict after
entity-count link-follows — and `set_parent` itself would never return, which
the embedding reports as `hang`. -/
theorem C5_counterexample :
    corruptS.length = 3 ∧
      cycleCheck corruptS "C" (some "A") corruptS.length = none ∧
      (set_parent corruptS "C" (some "A") "t").2 = SPResult.hang := by
  refine ⟨rfl, by decide, by decide⟩

theorem cycleCheck_self (s : Store) (id : String) (hne : id ≠ "") (n : Nat) :
    cycleCheck s id (some id) n = some false := by
  cases n <;> simp [cycleCheck, hne]

/-! ### C7 -/

/-- C7: cycle-rejection atomicity of `set_parent` — in any state (ids nonempty,
as every generated id is) holding entities `a` and `b` with `b`'s parent set to
`a`, `set_parent a b` returns the not-found result and the whole store is
returned unchanged; in particular `a` keeps its prior parent. -/
theorem C7_cycle_rejection_atomic (s : Store) (hok : IdsOK s)
    (a b : String) (wA wB : Workstream) (now : String)
    (ha : findWS s a = some wA) (hb : findWS s b = some wB)
    (hparent : wB.parent_id = some a) :
    set_parent s a (some b) now = (s, SPResult.notFound) := by
  have hbne : b ≠ "" := by
    have hh := hok wB (findWS_mem hb)
    rwa [findWS_id hb] at hh
  have hane : a ≠ "" := by
    have hh := hok wA (findWS_mem ha)
    rwa [findWS_id ha] at hh
  have hcc : cycleCheck s a (some b) (s.length + 1) = some false := by
    by_cases hab : b = a
    · rw [hab]
      exact cycleCheck_self s a hane _
    · have h1 : cycleCheck s a (some b) (s.length + 1) =
          cycleCheck s a (some a) s.length := by
        simp [cycleCheck, hbne, hab, hb, hparent]
      rw [h1]
      exact cycleCheck_self s a hane _
  have hbemp : b.isEmpty = false := by
    cases hbi : b.isEmpty
    · rfl
    · exact absurd ((String.isEmpty_iff b).mp hbi) hbne
  simp [set_parent, ha, hb, truthy, hbemp, hcc]

def c7wA : Workstream := rawWS "A" none

def c7wB : Workstream := rawWS "B" (some "A")

def c7s : Store := [c7wA, c7wB]

theorem C7_cycle_rejection_atomic_witness :
    set_parent c7s "A" (some "B") "t9" = (c7s, SPResult.notFound) :=
  C7_cycle_rejection_atomic c7s (by unfold IdsOK; decide) "A" "B" c7wA c7wB "t9"
    (by decide) (by decide) (by decide)

/-! ### C10 -/

/-- C10 (implicit): no parent-existence validation outside `set_parent` — a
create or update request whose non-empty `parent_id = X` names no entity still
succeeds and stores the dangling reference verbatim (no existence or cycle
check on those paths), while `set_parent` with the same `X` returns the
not-found result and changes nothing. -/
theorem C10_dangling_parent_unchecked (s : Store) (X new_id now : String)
    (req : CreateWorkstreamRequest) (ureq : UpdateWorkstreamRequest)
    (w : Workstream)
    (hX : X ≠ "") (hdangling : findWS s X = none)
    (hcp : req.parent_id = some X)
    (hfresh : findWS s new_id = none)
    (hup : ureq.parent_id = some X)
    (hw : findWS s ureq.id = some w) :
    ((create s req new_id now).2.parent_id = some X ∧
      findWS (create s req new_id now).1 new_id = some (create s req new_id now).2) ∧
    ((update s ureq now).2 = some { applyUpdate w ureq with updated_at := now } ∧
      ({ applyUpdate w ureq with updated_at := now } : Workstream).parent_id = some X ∧
      findWS (update s ureq now).1 ureq.id =
        some { applyUpdate w ureq with updated_at := now }) ∧
    set_parent s ureq.id (some X) now = (s, SPResult.notFound) := by
  refine ⟨⟨hcp, ?_⟩, ⟨?_, ?_, ?_⟩, ?_⟩
  · show findWS (s ++ [(create s req new_id now).2]) new_id = _
    rw [findWS_append, hfresh]
    simp [create]
  · simp [update, hw]
  · show (applyUpdate w ureq).parent_id = some X
    rw [applyUpdate_parent_of_some w ureq X hup, if_neg hX]
  · have hid6 : ({ applyUpdate w ureq with updated_at := now } : Workstream).id = ureq.id := by
      show (applyUpdate w ureq).id = ureq.id
      rw [applyUpdate_id]
      exact findWS_id hw
    have hs' : (update s ureq now).1 =
        replaceWS s ureq.id { applyUpdate w ureq with updated_at := now } := by
      simp [update, hw]
    rw [hs', findWS_replace _ _ _ hid6, hw]
    simp [findWS_id hw]
  · have hXemp : X.isEmpty = false := by
      cases hXi : X.isEmpty
      · rfl
      · exact absurd ((String.isEmpty_iff X).mp hXi) hX
    simp [set_parent, hw, hdangling, truthy, hXemp]

def c10base : Store := [rawWS "E" none]

def c10req : CreateWorkstreamRequest :=
  { name := "N", summary := "", tags := [], metadata := none,
    parent_id := some "ghost" }

def c10ureq : UpdateWorkstreamRequest :=
  { id := "E", name := none, summary := none, tags := none, metadata := none,
    parent_id := some "ghost" }

theorem C10_dangling_parent_unchecked_witness :
    ((create c10base c10req "w7" "t").2.parent_id = some "ghost" ∧
      findWS (create c10base c10req "w7" "t").1 "w7" =
        some (create c10base c10req "w7" "t").2) ∧
    ((update c10base c10ureq "t").2 =
        some { applyUpdate (rawWS "E" none) c10ureq with updated_at := "t" } ∧
      ({ applyUpdate (rawWS "E" none) c10ureq with updated_at := "t" } : Workstream).parent_id
          = some "ghost" ∧
      findWS (update c10base c10ureq "t").1 c10ureq.id =
        some { applyUpdate (rawWS "E" none) c10ureq with updated_at := "t" }) ∧
    set_parent c10base c10ureq.id (some "ghost") "t" = (c10base, SPResult.notFound) :=
  C10_dangling_parent_unchecked c10base "ghost" "w7" "t" c10req c10ureq
    (rawWS "E" none) (by decide) (by decide) (by decide) (by decide) (by decide)
    (by decide)

/-! ### C4 -/

/-- C4 (amended): for every store and every non-empty tag list, the
`match_all = true` result of `search_by_tags` is a subset of the
`match_all = false` result.  With an empty tag list the inclusion reverses:
`all` over no tags holds for every workstream while `any` over no tags holds
for none, so the claim as stated (for every tag list) is false. -/
theorem C4_match_all_subset (s : Store) (tags : List String) (h : tags ≠ [])
    (w : Workstream) (hw : w ∈ search_by_tags s tags true) :
    w ∈ search_by_tags s tags false := by
  unfold search_by_tags at hw ⊢
  rw [if_pos rfl] at hw
  rw [if_neg (fun hcon => Bool.false_ne_true hcon)]
  rw [List.mem_filter] at hw
  obtain ⟨hmem, hall⟩ := hw
  rw [List.mem_filter]
  refine ⟨hmem, ?_⟩
  cases tags with
  | nil => exact absurd rfl h
  | cons t ts =>
    have hT := (List.all_eq_true.mp hall) t (by simp)
    exact List.any_eq_true.mpr ⟨t, by simp, hT⟩

def c4w : Workstream :=
  { id := "W", name := "W", summary := "", tags := ["python"], metadata := [],
    notes := [], parent_id := none, created_at := "t", updated_at := "t" }

theorem C4_match_all_subset_witness :
    c4w ∈ search_by_tags [c4w] ["python"] false :=
  C4_match_all_subset [c4w] ["python"] (by decide) c4w (by decide)

/-- C4 counterexample: with the empty tag list and a one-entity store,
`match_all = true` returns the entity but `match_all = false` returns nothing,
so the claimed subset relation fails for that tag list. -/
theorem C4_counterexample :
    c4w ∈ search_by_tags [c4w] [] true ∧ c4w ∉ search_by_tags [c4w] [] false := by
  refine ⟨by decide, by decide⟩

/-! ### C6 -/

theorem list_toFinset_dedup (l : List String) : l.dedup.toFinset = l.toFinset := by
  ext t
  simp [List.mem_toFinset, List.mem_dedup]

theorem dedup_union_length (w T : List String) (hnd : w.Nodup) :
    ((w ++ T).dedup).length
      = w.length + ((T.filter (fun t => !(w.contains t))).dedup).length := by
  have hsdiff : (T.filter (fun t => !(w.contains t))).toFinset
      = T.toFinset \ w.toFinset := by
    ext t
    simp [List.mem_toFinset, List.mem_filter, Finset.mem_sdiff]
  calc ((w ++ T).dedup).length
      = (w ++ T).toFinset.card := (List.card_toFinset _).symm
    _ = (w.toFinset ∪ T.toFinset).card := by rw [List.toFinset_append]
    _ = (T.toFinset \ w.toFinset).card + w.toFinset.card := by
        rw [Finset.union_comm, ← Finset.card_sdiff_add_card]
    _ = w.length + ((T.filter (fun t => !(w.contains t))).dedup).length := by
        rw [← hsdiff, List.toFinset_card_of_nodup hnd, ← List.card_toFinset]
        omega

/-- C6 (amended): for a stored entity whose tag list is duplicate-free (as the
spec's set-like tag model prescribes), `add_tags id T` twice yields the same
tag set as once, with no duplicates and equal counts, and the count after one
call is the original count plus the number of distinct tags of `T` not already
present.  As stated the claim is false, because `create`/`update` store the
request's tag list verbatim: on an entity whose stored tags are `["a", "a"]`,
adding one new tag yields 2 tags, not `original + N = 3` — see the
counterexample. -/
theorem C6_tag_idempotence (s : Store) (id : String) (T : List String)
    (w : Workstream) (now1 now2 : String)
    (hw : findWS s id = some w) (hnd : w.tags.Nodup) :
    ∃ w1 w2,
      (add_tags s id T now1).2 = some w1 ∧
      (add_tags (add_tags s id T now1).1 id T now2).2 = some w2 ∧
      w1.tags.Nodup ∧ w2.tags.Nodup ∧
      w2.tags.toFinset = w1.tags.toFinset ∧
      w2.tags.length = w1.tags.length ∧
      w1.tags.length
        = w.tags.length + ((T.filter (fun t => !(w.tags.contains t))).dedup).length := by
  have hid : w.id = id := findWS_id hw
  have h1 : (add_tags s id T now1).2
      = some { w with tags := (w.tags ++ T).dedup, updated_at := now1 } := by
    simp [add_tags, hw]
  set s1 := (add_tags s id T now1).1 with hs1def
  have hs1 : s1 = replaceWS s id
      { w with tags := (w.tags ++ T).dedup, updated_at := now1 } := by
    rw [hs1def]
    simp [add_tags, hw]
  have hf1 : findWS s1 id
      = some { w with tags := (w.tags ++ T).dedup, updated_at := now1 } := by
    rw [hs1, findWS_replace _ _ _ (by show w.id = id; exact hid), hw]
    simp [hid]
  refine ⟨{ w with tags := (w.tags ++ T).dedup, updated_at := now1 },
    { { w with tags := (w.tags ++ T).dedup, updated_at := now1 } with
      tags := (((w.tags ++ T).dedup) ++ T).dedup, updated_at := now2 },
    h1, ?_, ?_, ?_, ?_, ?_, ?_⟩
  · simp [add_tags, hf1]
  · exact List.nodup_dedup _
  · exact List.nodup_dedup _
  · show ((((w.tags ++ T).dedup) ++ T).dedup).toFinset = ((w.tags ++ T).dedup).toFinset
    simp [list_toFinset_dedup, List.toFinset_append, Finset.union_assoc,
      Finset.union_self]
  · show ((((w.tags ++ T).dedup) ++ T).dedup).length = ((w.tags ++ T).dedup).length
    rw [← List.card_toFinset, ← List.card_toFinset]
    simp [list_toFinset_dedup, List.toFinset_append, Finset.union_assoc,
      Finset.union_self]
  · exact dedup_union_length w.tags T hnd

def c6w : Workstream :=
  { id := "W", name := "W", summary := "", tags := ["a", "b"], metadata := [],
    notes := [], parent_id := none, created_at := "t", updated_at := "t" }

theorem C6_tag_idempotence_witness :
    ∃ w1 w2,
      (add_tags [c6w] "W" ["b", "c"] "t1").2 = some w1 ∧
      (add_tags (add_tags [c6w] "W" ["b", "c"] "t1").1 "W" ["b", "c"] "t2").2 = some w2 ∧
      w1.tags.Nodup ∧ w2.tags.Nodup ∧
      w2.tags.toFinset = w1.tags.toFinset ∧
      w2.tags.length = w1.tags.length ∧
      w1.tags.length
        = c6w.tags.length
          + (((["b", "c"].filter (fun t => !(c6w.tags.contains t))).dedup)).length :=
  C6_tag_idempotence [c6w] "W" ["b", "c"] c6w "t1" "t2" (by decide) (by decide)

def c6req : CreateWorkstreamRequest :=
  { name := "D", summary := "", tags := ["a", "a"], metadata := none, parent_id := none }

def c6dupW : Workstream :=
  { id := "D", name := "D", summary := "", tags := ["a", "a"], metadata := [],
    notes := [], parent_id := none, created_at := "t", updated_at := "t" }

/-- C6 counterexample: `create` stores the request's tag list verbatim, so an
entity can hold the duplicated tag list `["a", "a"]`; adding the one new tag
`"b"` then yields 2 tags, not the claimed original-count + N = 3 — duplicates
collapse on `add_tags`, so the count drops below `original + N`. -/
theorem C6_counterexample :
    (create [] c6req "D" "t").2.tags = ["a", "a"] ∧
    ((add_tags [c6dupW] "D" ["b"] "t1").2.map (fun w => w.tags.length)) = some 2 ∧
    ((add_tags [c6dupW] "D" ["b"] "t1").2.map (fun w => w.tags.length))
      ≠ some (c6dupW.tags.length + 1) := by
  refine ⟨by decide, by decide, by decide⟩

/-! ### C2 -/

theorem findWS_replace_self {s : Store} {id : String} {w w' : Workstream}
    (hf : findWS s id = some w) (hid : w'.id = id) :
    findWS (replaceWS s id w') id = some w' := by
  rw [findWS_replace _ _ _ hid, hf]
  simp [findWS_id hf]

theorem formatNote_scenario (t : String) :
    formatNote t (some "decision") "new text" = "[" ++ t ++ "][DECISION] new text" := by
  show "[" ++ t ++ "]" ++ ("[" ++ pyUpper "decision" ++ "]") ++ " " ++ "new text"
      = "[" ++ t ++ "][DECISION] new text"
  apply String.ext
  simp only [String.data_append, List.append_assoc]
  have h2 : ("]".data ++ ("[".data ++ ((pyUpper "decision").data
      ++ ("]".data ++ (" ".data ++ "new text".data)))))
      = "][DECISION] new text".data := by decide
  rw [h2]

/-- C2 (spec-modelled): the index-addressed note operations.  `update_note`
and `delete_note` return "not found" exactly when the id is unknown or the
index lies outside `[0, len(notes))`; and in the spec's scenario 4, after
`add_note(ws, "text")`, `update_note(ws, 0, "new text", "decision")` turns
note 0 into `[timestamp][DECISION] new text` and `delete_note(ws, 0)` then
leaves zero notes. -/
theorem C2_note_ops :
    (∀ (s : Store) (id : String) (idx : Int) (content : String)
        (cat : Option String) (now : String),
      ((update_note s id idx content cat now).2 = none ↔
        ∀ w, findWS s id = some w → (idx < 0 ∨ (w.notes.length : Int) ≤ idx))) ∧
    (∀ (s : Store) (id : String) (idx : Int) (now : String),
      ((delete_note s id idx now).2 = none ↔
        ∀ w, findWS s id = some w → (idx < 0 ∨ (w.notes.length : Int) ≤ idx))) ∧
    (∀ (s : Store) (ws : String) (w : Workstream) (t1 t2 t3 : String),
      findWS s ws = some w → w.notes = [] →
      ∃ w2 w3,
        findWS (update_note (add_note s ws "text" t1).1 ws 0 "new text"
            (some "decision") t2).1 ws = some w2 ∧
        w2.notes = ["[" ++ t2 ++ "][DECISION] new text"] ∧
        findWS (delete_note (update_note (add_note s ws "text" t1).1 ws 0 "new text"
            (some "decision") t2).1 ws 0 t3).1 ws = some w3 ∧
        w3.notes = []) := by
  refine ⟨?_, ?_, ?_⟩
  · intro s id idx content cat now
    cases hf : findWS s id with
    | none => simp [update_note, hf]
    | some w =>
      by_cases hb : idx < 0 ∨ (w.notes.length : Int) ≤ idx
      · simp [update_note, hf, hb]
      · simp [update_note, hf, hb]
  · intro s id idx now
    cases hf : findWS s id with
    | none => simp [delete_note, hf]
    | some w =>
      by_cases hb : idx < 0 ∨ (w.notes.length : Int) ≤ idx
      · simp [delete_note, hf, hb]
      · simp [delete_note, hf, hb]
  · intro s ws w t1 t2 t3 hw hnotes
    have hid : w.id = ws := findWS_id hw
    set w1 : Workstream :=
      { w with notes := w.notes ++ ["[" ++ t1 ++ "] " ++ "text"], updated_at := t1 }
      with hw1
    have hs1 : (add_note s ws "text" t1).1 = replaceWS s ws w1 := by
      simp [add_note, hw, hw1]
    have hf1 : findWS (add_note s ws "text" t1).1 ws = some w1 := by
      rw [hs1]
      exact findWS_replace_self hw hid
    have hlen1 : w1.notes = ["[" ++ t1 ++ "] " ++ "text"] := by
      rw [hw1]
      show w.notes ++ _ = _
      rw [hnotes]
      rfl
    have hguard : ¬ ((0 : Int) < 0 ∨ (w1.notes.length : Int) ≤ 0) := by
      rw [hlen1]
      simp
    set w2 : Workstream :=
      { w1 with
        notes := w1.notes.set 0 (formatNote t2 (some "decision") "new text")
        updated_at := t2 } with hw2
    have hs2 : (update_note (add_note s ws "text" t1).1 ws 0 "new text"
        (some "decision") t2).1 = replaceWS (add_note s ws "text" t1).1 ws w2 := by
      simp only [update_note, hf1]
      rw [if_neg hguard]
      rfl
    have hid1 : w1.id = ws := by
      rw [hw1]
      exact hid
    have hid2 : w2.id = ws := by
      rw [hw2]
      exact hid1
    have hf2 : findWS (update_note (add_note s ws "text" t1).1 ws 0 "new text"
        (some "decision") t2).1 ws = some w2 := by
      rw [hs2]
      exact findWS_replace_self hf1 hid2
    have hnotes2 : w2.notes = ["[" ++ t2 ++ "][DECISION] new text"] := by
      rw [hw2]
      show w1.notes.set 0 _ = _
      rw [hlen1, formatNote_scenario]
      rfl
    have hguard3 : ¬ ((0 : Int) < 0 ∨ (w2.notes.length : Int) ≤ 0) := by
      rw [hnotes2]
      simp
    set w3 : Workstream :=
      { w2 with notes := w2.notes.eraseIdx 0, updated_at := t3 } with hw3
    have hid3 : w3.id = ws := by
      rw [hw3]
      exact hid2
    have hs3 : (delete_note (update_note (add_note s ws "text" t1).1 ws 0 "new text"
        (some "decision") t2).1 ws 0 t3).1
        = replaceWS (update_note (add_note s ws "text" t1).1 ws 0 "new text"
            (some "decision") t2).1 ws w3 := by
      simp only [delete_note, hf2]
      rw [if_neg hguard3]
      rfl
    have hf3 : findWS (delete_note (update_note (add_note s ws "text" t1).1 ws 0
        "new text" (some "decision") t2).1 ws 0 t3).1 ws = some w3 := by
      rw [hs3]
      exact findWS_replace_self hf2 hid3
    refine ⟨w2, w3, hf2, hnotes2, hf3, ?_⟩
    rw [hw3]
    show w2.notes.eraseIdx 0 = []
    rw [hnotes2]
    rfl

def c2w : Workstream := rawWS "N" none

theorem C2_note_ops_witness :
    ((update_note [] "x" 0 "c" none "t").2 = none ↔
      ∀ w, findWS [] "x" = some w → ((0 : Int) < 0 ∨ (w.notes.length : Int) ≤ 0)) ∧
    (∃ w2 w3,
      findWS (update_note (add_note [c2w] "N" "text" "t1").1 "N" 0 "new text"
          (some "decision") "t2").1 "N" = some w2 ∧
      w2.notes = ["[" ++ "t2" ++ "][DECISION] new text"] ∧
      findWS (delete_note (update_note (add_note [c2w] "N" "text" "t1").1 "N" 0
          "new text" (some "decision") "t2").1 "N" 0 "t3").1 "N" = some w3 ∧
      w3.notes = []) :=
  ⟨C2_note_ops.1 [] "x" 0 "c" none "t",
    C2_note_ops.2.2 [c2w] "N" c2w "t1" "t2" "t3" (by decide) (by decide)⟩

/-! ### Relationship heuristics engine (`src/heuristics.py`)

Confidences are embedded as rationals (`0.3 = 3/10` and so on); every score the
source computes is a short decimal or a `min` with one, so the float and
rational computations order identically.  `re` patterns are specialized to the
two anchored patterns the source builds; `.lower()` is ASCII `Char.toLower`;
Python `sorted` on strings is code-point lexicographic; `list(overlap)[:5]`
slices a CPython set in its unspecified iteration order and is modelled in
first-occurrence order (reason strings only). -/

/-- `PROGRAM_TAGS` (heuristics.py:23). -/
def PROGRAM_TAGS : List String :=
  ["program", "initiative", "project", "portfolio", "epic", "parent"]

/-- `MIN_CONFIDENCE` (heuristics.py:27). -/
def MIN_CONFIDENCE : ℚ := 3/10

/-- `HeuristicResult` (heuristics.py:31). -/
structure HeuristicResult where
  confidence : ℚ
  reason : String
deriving DecidableEq

/-- `RelationshipSuggestion` (src/types.py:114). -/
structure RelationshipSuggestion where
  source_id : String
  target_id : String
  relationship_type : String
  confidence : ℚ
  reason : String
deriving DecidableEq

/-- Python `\s` over ASCII. -/
def isPySpace (c : Char) : Bool :=
  c == ' ' || c == '\t' || c == '\n' || c == '\x0d' || c == '\x0b' || c == '\x0c'

/-- `.lower()` on the character list of a string (ASCII). -/
def lowerChars (l : List Char) : List Char := l.map Char.toLower

/-- Python `.strip()`. -/
def pyStrip (l : List Char) : List Char :=
  ((l.dropWhile isPySpace).reverse.dropWhile isPySpace).reverse

/-- `name.lower().strip()` as used by the name-containment heuristic. -/
def normName (s : String) : List Char := pyStrip (lowerChars s.data)

/-- Python substring test `p in c`. -/
def isSubstring (p : List Char) : List Char → Bool
  | [] => p.isEmpty
  | c :: cs => p.isPrefixOf (c :: cs) || isSubstring p cs

/-- `re.match(rf"^{re.escape(p)}\s*[-:]\s*", c)`: the escaped `p` verbatim at
the start, optional whitespace, then `-` or `:` (the trailing `\s*` always
matches; the leading `\s*` is maximal-munch equivalent because `-`/`:` are not
whitespace). -/
def patSepMatch (p c : List Char) : Bool :=
  p.isPrefixOf c &&
    (match (c.drop p.length).dropWhile isPySpace with
     | [] => false
     | ch :: _ => ch == '-' || ch == ':')

/-- `re.match(rf"^{re.escape(p)}\s+", c)`. -/
def patSpaceMatch (p c : List Char) : Bool :=
  p.isPrefixOf c &&
    (match c.drop p.length with
     | [] => false
     | ch :: _ => isPySpace ch)

/-- Code-point lexicographic `<` on char lists, Python's string ordering. -/
def strLtChars : List Char → List Char → Bool
  | [], [] => false
  | [], _ :: _ => true
  | _ :: _, [] => false
  | a :: as, b :: bs => if a = b then strLtChars as bs else decide (a < b)

/-- Python `<` on strings. -/
def strLt (a b : String) : Bool := strLtChars a.data b.data

def insertStr (x : String) : List String → List String
  | [] => [x]
  | y :: ys => if strLt y x then y :: insertStr x ys else x :: y :: ys

/-- Python `sorted` on strings (ascending, code-point order). -/
def sortStrings : List String → List String
  | [] => []
  | x :: xs => insertStr x (sortStrings xs)

/-- `_tag_overlap_heuristic` (heuristics.py:38). -/
def tag_overlap_heuristic (ws1 ws2 : Workstream) : Option HeuristicResult :=
  if ws1.tags.isEmpty || ws2.tags.isEmpty then none
  else
    let shared_non_program :=
      ((ws1.tags.filter (fun t => ws2.tags.contains t)).filter
        (fun t => !(PROGRAM_TAGS.contains t))).dedup
    if shared_non_program.length ≥ 2 then
      some { confidence := min (8/10) (3/10 + (shared_non_program.length : ℚ) * (15/100))
             reason := "Share " ++ toString shared_non_program.length ++ " tags: "
               ++ String.intercalate ", " (sortStrings shared_non_program) }
    else none

/-- `_name_containment_heuristic` (heuristics.py:56). -/
def name_containment_heuristic (potential_parent potential_child : Workstream) :
    Option HeuristicResult :=
  let parent_name := normName potential_parent.name
  let child_name := normName potential_child.name
  if parent_name = child_name then none
  else if isSubstring parent_name child_name then
    some { confidence := 7/10
           reason := "Child name contains parent name \x27"
             ++ potential_parent.name ++ "\x27" }
  else if patSepMatch parent_name child_name || patSpaceMatch parent_name child_name then
    some { confidence := 75/100
           reason := "Child name prefixed with parent name \x27"
             ++ potential_parent.name ++ "\x27" }
  else none

/-- `_program_tag_heuristic` (heuristics.py:91). -/
def program_tag_heuristic (ws : Workstream) : Bool :=
  ws.tags.any (fun t => PROGRAM_TAGS.contains t)

def isAsciiAlpha (ch : Char) : Bool :=
  ('a' ≤ ch && ch ≤ 'z') || ('A' ≤ ch && ch ≤ 'Z')

def isWordChar (ch : Char) : Bool :=
  isAsciiAlpha ch || ('0' ≤ ch && ch ≤ '9') || ch == '_'

/-- Maximal runs of regex word characters, with fuel for structural recursion;
each step consumes at least one character, so `l.length` fuel always suffices. -/
def tokenizeF : Nat → List Char → List (List Char)
  | 0, _ => []
  | _ + 1, [] => []
  | fuel + 1, ch :: cs =>
    if isWordChar ch then
      (ch :: cs.takeWhile isWordChar) :: tokenizeF fuel (cs.dropWhile isWordChar)
    else tokenizeF fuel cs

/-- Maximal runs of regex word characters. -/
def tokenize (l : List Char) : List (List Char) := tokenizeF l.length l

/-- The stopword set of `_summary_similarity_heuristic` (heuristics.py:104). -/
def STOPWORDS : List (List Char) :=
  (["about", "after", "being", "between", "could", "during", "every", "first",
    "through", "under", "using", "where", "which", "while", "would", "their",
    "there", "these", "those", "should", "including", "working"]).map
    (fun s => s.data)

/-- `extract_keywords` (heuristics.py:101): `re.findall(r"\b[a-zA-Z]{5,}\b",
text.lower())` finds exactly the maximal word-character runs that are all
alphabetic and at least 5 long; the set subtraction and set-ness are the
dedup and stopword filter. -/
def extract_keywords (text : String) : List (List Char) :=
  (((tokenize (lowerChars text.data)).filter
      (fun t => t.all isAsciiAlpha && decide (5 ≤ t.length))).filter
      (fun t => !(STOPWORDS.contains t))).dedup

/-- `_summary_similarity_heuristic` (heuristics.py:96). -/
def summary_similarity_heuristic (ws1 ws2 : Workstream) : Option HeuristicResult :=
  let kw1 := extract_keywords ws1.summary
  let kw2 := extract_keywords ws2.summary
  if kw1.isEmpty || kw2.isEmpty then none
  else
    let overlap := kw1.filter (fun t => kw2.contains t)
    if overlap.length ≥ 3 then
      some { confidence :=
               min (6/10) ((overlap.length : ℚ) / (((kw1 ++ kw2).dedup).length : ℚ) + 2/10)
             reason := "Summary keyword overlap: " ++ String.intercalate ", "
               (sortStrings ((overlap.take 5).map (fun t => String.mk t))) }
    else none

/-- `" ".join(ws.notes).lower()`. -/
def notesText (ws : Workstream) : List Char :=
  lowerChars (String.intercalate " " ws.notes).data

/-- `_cross_reference_heuristic` (heuristics.py:148). -/
def cross_reference_heuristic (ws1 ws2 : Workstream) : Option HeuristicResult :=
  let ws1_notes_text := notesText ws1
  let ws2_notes_text := notesText ws2
  if isSubstring ws2.id.data ws1_notes_text then
    some { confidence := 9/10
           reason := "References workstream ID \x27" ++ ws2.id ++ "\x27 in notes" }
  else if isSubstring ws1.id.data ws2_notes_text then
    some { confidence := 9/10
           reason := "Referenced by workstream in its notes" }
  else if decide (5 < ws2.name.length) && isSubstring (lowerChars ws2.name.data) ws1_notes_text then
    some { confidence := 7/10
           reason := "Mentions \x27" ++ ws2.name ++ "\x27 in notes" }
  else if decide (5 < ws1.name.length) && isSubstring (lowerChars ws1.name.data) ws2_notes_text then
    some { confidence := 7/10
           reason := "Mentioned by \x27" ++ ws2.name ++ "\x27 in its notes" }
  else none

/-- `_shared_tag_parent_heuristic` (heuristics.py:183). -/
def shared_tag_parent_heuristic (potential_parent potential_child : Workstream) :
    Option HeuristicResult :=
  if potential_parent.tags.any (fun t => PROGRAM_TAGS.contains t) = false then none
  else
    let parent_name_tag := (lowerChars potential_parent.name.data).map
      (fun ch => if ch == ' ' then '-' else ch)
    let parent_name_tag_simple := (lowerChars potential_parent.name.data).filter
      (fun ch => !(ch == ' '))
    let child_tags_lower := potential_child.tags.map (fun t => lowerChars t.data)
    if child_tags_lower.contains parent_name_tag
        || child_tags_lower.contains parent_name_tag_simple
        || child_tags_lower.contains (lowerChars potential_parent.name.data) then
      some { confidence := 85/100
             reason := "Child tagged with parent\x27s name \x27"
               ++ potential_parent.name ++ "\x27 and parent has program tag" }
    else none

/-- The append guard `result and result.confidence >= MIN_CONFIDENCE`. -/
def gated (r : Option HeuristicResult) : Option HeuristicResult :=
  match r with
  | some h => if MIN_CONFIDENCE ≤ h.confidence then some h else none
  | none => none

def mkSug (src tgt ty : String) (r : HeuristicResult) : RelationshipSuggestion :=
  { source_id := src, target_id := tgt, relationship_type := ty,
    confidence := r.confidence, reason := r.reason }

/-- The pair-loop body of `suggest_relationships` (heuristics.py:223-325):
skip explicitly linked pairs, then try the heuristics in priority order, the
first gated hit appending exactly one suggestion. -/
def pairSuggestion (ws1 ws2 : Workstream) : Option RelationshipSuggestion :=
  if ws1.parent_id = some ws2.id ∨ ws2.parent_id = some ws1.id then none
  else
    match (if program_tag_heuristic ws1
        then gated (shared_tag_parent_heuristic ws1 ws2) else none) with
    | some r => some (mkSug ws2.id ws1.id "parent" r)
    | none =>
    match (if program_tag_heuristic ws1
        then gated (name_containment_heuristic ws1 ws2) else none) with
    | some r => some (mkSug ws2.id ws1.id "parent" r)
    | none =>
    match (if program_tag_heuristic ws2
        then gated (shared_tag_parent_heuristic ws2 ws1) else none) with
    | some r => some (mkSug ws1.id ws2.id "parent" r)
    | none =>
    match (if program_tag_heuristic ws2
        then gated (name_containment_heuristic ws2 ws1) else none) with
    | some r => some (mkSug ws1.id ws2.id "parent" r)
    | none =>
    match gated (cross_reference_heuristic ws1 ws2) with
    | some r => some (mkSug ws1.id ws2.id "related" r)
    | none =>
    match gated (tag_overlap_heuristic ws1 ws2) with
    | some r => some (mkSug ws1.id ws2.id "related" r)
    | none =>
    match gated (summary_similarity_heuristic ws1 ws2) with
    | some r => some (mkSug ws1.id ws2.id "similar" r)
    | none => none

/-- The pairs `(workstreams[i], workstreams[j])`, `i < j`, in loop order. -/
def allPairs : List Workstream → List (Workstream × Workstream)
  | [] => []
  | x :: xs => (xs.map (fun y => (x, y))) ++ allPairs xs

def insertByConf (x : RelationshipSuggestion) :
    List RelationshipSuggestion → List RelationshipSuggestion
  | [] => [x]
  | y :: ys => if x.confidence < y.confidence then y :: insertByConf x ys
               else x :: y :: ys

/-- Stable descending sort by confidence: Python's stable
`suggestions.sort(key=lambda s: s.confidence, reverse=True)`. -/
def sortByConf : List RelationshipSuggestion → List RelationshipSuggestion
  | [] => []
  | x :: xs => insertByConf x (sortByConf xs)

/-- `suggest_relationships` (heuristics.py:213). -/
def suggest_relationships (workstreams : List Workstream) :
    List RelationshipSuggestion :=
  sortByConf ((allPairs workstreams).filterMap (fun pq => pairSuggestion pq.1 pq.2))

/-! ### Substring bridging lemmas -/

theorem isSubstring_iff (p : List Char) :
    ∀ c : List Char, isSubstring p c = true ↔ p <:+: c := by
  intro c
  induction c with
  | nil =>
    constructor
    · intro h
      have hp : p = [] := by simpa [isSubstring, List.isEmpty_iff] using h
      simp [hp]
    · intro h
      have hp : p = [] := by simpa using h.length_le.antisymm (by simp)
      simp [isSubstring, List.isEmpty_iff, hp]
  | cons a cs ih =>
    constructor
    · intro h
      have h' : p.isPrefixOf (a :: cs) = true ∨ isSubstring p cs = true := by
        simpa [isSubstring] using h
      rcases h' with h1 | h2
      · exact (List.isPrefixOf_iff_prefix.mp h1).isInfix
      · exact (ih.mp h2).trans (List.infix_cons (List.infix_refl cs))
    · intro h
      rcases List.infix_cons_iff.mp h with h1 | h2
      · simp [isSubstring, List.isPrefixOf_iff_prefix.mpr h1]
      · simp [isSubstring, ih.mpr h2]

theorem patSepMatch_starts {p c : List Char} (h : patSepMatch p c = true) :
    p <+: c := by
  have h' := (Bool.and_eq_true _ _).mp h
  exact List.isPrefixOf_iff_prefix.mp h'.1

theorem patSpaceMatch_starts {p c : List Char} (h : patSpaceMatch p c = true) :
    p <+: c := by
  have h' := (Bool.and_eq_true _ _).mp h
  exact List.isPrefixOf_iff_prefix.mp h'.1

/-! ### C9 -/

/-- Modelled from the spec's description of the reachable behavior: the
name-containment heuristic with only the equal-name skip and the plain
containment branch at confidence 0.7 (the source's 0.75 prefix-pattern branch
removed). -/
def name_containment_simple (potential_parent potential_child : Workstream) :
    Option HeuristicResult :=
  let parent_name := normName potential_parent.name
  let child_name := normName potential_child.name
  if parent_name = child_name then none
  else if isSubstring parent_name child_name then
    some { confidence := 7/10
           reason := "Child name contains parent name \x27"
             ++ potential_parent.name ++ "\x27" }
  else none

/-- C9: the prefix-specific 0.75 branch of the name-containment heuristic is
unreachable — whenever one of the two anchored prefix patterns matches, the
lowered-stripped parent name is a prefix and hence a substring of the child
name, so the 0.7 plain-containment branch has already returned; the heuristic
is observationally equal to the containment-only simplification. -/
theorem C9_prefix_branch_unreachable (p c : Workstream) :
    name_containment_heuristic p c = name_containment_simple p c := by
  unfold name_containment_heuristic name_containment_simple
  by_cases h1 : normName p.name = normName c.name
  · rw [if_pos h1, if_pos h1]
  · rw [if_neg h1, if_neg h1]
    by_cases h2 : isSubstring (normName p.name) (normName c.name) = true
    · rw [if_pos h2, if_pos h2]
    · rw [if_neg h2, if_neg h2, if_neg ?hpat]
      case hpat =>
        intro hor
        rcases (Bool.or_eq_true _ _).mp hor with hm | hm
        · exact h2 ((isSubstring_iff _ _).mpr (patSepMatch_starts hm).isInfix)
        · exact h2 ((isSubstring_iff _ _).mpr (patSpaceMatch_starts hm).isInfix)

/-! ### Sorting and membership lemmas for the suggestion pipeline -/

theorem mem_insertByConf {a x : RelationshipSuggestion}
    {ys : List RelationshipSuggestion} :
    a ∈ insertByConf x ys ↔ a = x ∨ a ∈ ys := by
  induction ys with
  | nil => simp [insertByConf]
  | cons y ys ih =>
    by_cases h : x.confidence < y.confidence
    · simp only [insertByConf, if_pos h, List.mem_cons, ih]
      tauto
    · simp only [insertByConf, if_neg h, List.mem_cons]

theorem mem_sortByConf {a : RelationshipSuggestion}
    {l : List RelationshipSuggestion} :
    a ∈ sortByConf l ↔ a ∈ l := by
  induction l with
  | nil => simp [sortByConf]
  | cons x xs ih => simp [sortByConf, mem_insertByConf, ih]

/-- When the candidate parent\x27s trimmed lowered name is strictly contained in
the candidate child\x27s, the heuristic in the opposite direction returns nothing:
both the containment and the prefix-pattern branch would make each name an
infix of the other, forcing equality. -/
theorem name_containment_rev_none {a b : Workstream}
    (hne : normName a.name ≠ normName b.name)
    (hsub : isSubstring (normName a.name) (normName b.name) = true) :
    name_containment_heuristic b a = none := by
  have hab : normName a.name <:+: normName b.name := (isSubstring_iff _ _).mp hsub
  have hrev : ∀ h : normName b.name <:+: normName a.name, False := by
    intro h
    exact hne (hab.sublist.eq_of_length
      (Nat.le_antisymm hab.sublist.length_le h.sublist.length_le))
  unfold name_containment_heuristic
  rw [if_neg (fun h => hne h.symm)]
  rw [if_neg ?h2]
  case h2 =>
    intro h
    exact hrev ((isSubstring_iff _ _).mp h)
  rw [if_neg ?h3]
  case h3 =>
    intro h
    rcases (Bool.or_eq_true _ _).mp h with hm | hm
    · exact hrev (patSepMatch_starts hm).isInfix
    · exact hrev (patSpaceMatch_starts hm).isInfix

/-! ### C3 -/

/-- The suggestion the name-containment heuristic emits for parent `a` and
child `b`. -/
def c3sug (a b : Workstream) : RelationshipSuggestion :=
  { source_id := b.id
    target_id := a.id
    relationship_type := "parent"
    confidence := 7/10
    reason := "Child name contains parent name \x27" ++ a.name ++ "\x27" }

/-- C3 (amended): the name-containment heuristic does NOT fire from names
alone — in `suggest_relationships` it only runs under the program-tag guard on
the candidate parent.  When the candidate parent `a` carries a program tag, the
pair is not explicitly linked, the higher-priority shared-tag-parent heuristic
fires in neither direction, and `b`\x27s trimmed lowered name strictly contains
`a`\x27s, the pair emits the parent suggestion (source `b`, target `a`,
confidence 0.7), whichever order the pair appears in. -/
theorem C3_name_containment (l : List Workstream) (a b : Workstream)
    (hmem : (a, b) ∈ allPairs l ∨ (b, a) ∈ allPairs l)
    (hl1 : a.parent_id ≠ some b.id) (hl2 : b.parent_id ≠ some a.id)
    (hprog : program_tag_heuristic a = true)
    (hst1 : shared_tag_parent_heuristic a b = none)
    (hst2 : shared_tag_parent_heuristic b a = none)
    (hne : normName a.name ≠ normName b.name)
    (hsub : isSubstring (normName a.name) (normName b.name) = true) :
    c3sug a b ∈ suggest_relationships l := by
  have hnc : name_containment_heuristic a b = some
      { confidence := 7/10
        reason := "Child name contains parent name \x27" ++ a.name ++ "\x27" } := by
    unfold name_containment_heuristic
    rw [if_neg hne, if_pos hsub]
  have hrev := name_containment_rev_none hne hsub
  have hps1 : pairSuggestion a b = some (c3sug a b) := by
    unfold pairSuggestion
    rw [if_neg (not_or.mpr ⟨hl1, hl2⟩), hprog, hst1, hnc]
    norm_num [gated, MIN_CONFIDENCE, mkSug, c3sug]
  have hps2 : pairSuggestion b a = some (c3sug a b) := by
    unfold pairSuggestion
    rw [if_neg (not_or.mpr ⟨hl2, hl1⟩), hst2, hrev, hprog, hst1, hnc]
    norm_num [gated, MIN_CONFIDENCE, mkSug, c3sug, ite_self]
  unfold suggest_relationships
  rw [mem_sortByConf]
  apply List.mem_filterMap.mpr
  rcases hmem with h | h
  · exact ⟨(a, b), h, hps1⟩
  · exact ⟨(b, a), h, hps2⟩

def c3a : Workstream :=
  { rawWS "a1" none with
    name := "Jupiter"
    tags := ["program"] }

def c3b : Workstream :=
  { rawWS "b1" none with
    name := "Jupiter Compute" }

theorem C3_name_containment_witness :
    ((c3a, c3b) ∈ allPairs [c3a, c3b] ∨ (c3b, c3a) ∈ allPairs [c3a, c3b]) ∧
    program_tag_heuristic c3a = true ∧
    shared_tag_parent_heuristic c3a c3b = none ∧
    c3sug c3a c3b ∈ suggest_relationships [c3a, c3b] :=
  ⟨Or.inl (by decide), by decide, by decide,
   C3_name_containment [c3a, c3b] c3a c3b (Or.inl (by decide)) (by decide)
     (by decide) (by decide) (by decide) (by decide) (by decide) (by decide)⟩

def c3na : Workstream :=
  { rawWS "na" none with
    name := "jup" }

def c3nb : Workstream :=
  { rawWS "nb" none with
    name := "jup net" }

/-- C3 counterexample to the original claim: `c3nb`\x27s name strictly contains
`c3na`\x27s after trimming and lowering, the pair carries no explicit parent link,
and the shared-tag-parent heuristic fires in neither direction, yet
`suggest_relationships` emits nothing — the name-containment heuristic is
guarded by the program-tag check on the candidate parent, so it does not fire
from names alone. -/
theorem C3_counterexample :
    c3na.parent_id ≠ some c3nb.id ∧ c3nb.parent_id ≠ some c3na.id ∧
    shared_tag_parent_heuristic c3na c3nb = none ∧
    shared_tag_parent_heuristic c3nb c3na = none ∧
    normName c3na.name ≠ normName c3nb.name ∧
    isSubstring (normName c3na.name) (normName c3nb.name) = true ∧
    suggest_relationships [c3na, c3nb] = [] := by
  refine ⟨by decide, by decide, by decide, by decide, by decide, by decide, ?_⟩
  decide

/-! ### Per-heuristic confidence facts -/

theorem shared_tag_conf {p q : Workstream} {r : HeuristicResult}
    (h : shared_tag_parent_heuristic p q = some r) : r.confidence = 85/100 := by
  simp only [shared_tag_parent_heuristic] at h
  split at h
  · cases h
  · split at h
    · cases h
      rfl
    · cases h

theorem name_containment_conf {p q : Workstream} {r : HeuristicResult}
    (h : name_containment_heuristic p q = some r) :
    r.confidence = 7/10 ∨ r.confidence = 75/100 := by
  simp only [name_containment_heuristic] at h
  split at h
  · cases h
  · split at h
    · cases h
      exact Or.inl rfl
    · split at h
      · cases h
        exact Or.inr rfl
      · cases h

theorem cross_reference_conf {p q : Workstream} {r : HeuristicResult}
    (h : cross_reference_heuristic p q = some r) :
    r.confidence = 9/10 ∨ r.confidence = 7/10 := by
  simp only [cross_reference_heuristic] at h
  split at h
  · cases h
    exact Or.inl rfl
  · split at h
    · cases h
      exact Or.inl rfl
    · split at h
      · cases h
        exact Or.inr rfl
      · split at h
        · cases h
          exact Or.inr rfl
        · cases h

theorem tag_overlap_conf {p q : Workstream} {r : HeuristicResult}
    (h : tag_overlap_heuristic p q = some r) : r.confidence ≤ 8/10 := by
  simp only [tag_overlap_heuristic] at h
  split at h
  · cases h
  · split at h
    · cases h
      exact min_le_left _ _
    · cases h

theorem summary_conf {p q : Workstream} {r : HeuristicResult}
    (h : summary_similarity_heuristic p q = some r) : r.confidence ≤ 6/10 := by
  simp only [summary_similarity_heuristic] at h
  split at h
  · cases h
  · split at h
    · cases h
      exact min_le_left _ _
    · cases h

/-- A heuristic result passes the append guard iff the heuristic produced it
and it meets the minimum confidence. -/
theorem gated_some {x : Option HeuristicResult} {r : HeuristicResult}
    (h : gated x = some r) : x = some r ∧ MIN_CONFIDENCE ≤ r.confidence := by
  cases x with
  | none => simp [gated] at h
  | some y =>
    simp only [gated] at h
    by_cases hc : MIN_CONFIDENCE ≤ y.confidence
    · rw [if_pos hc] at h
      cases h
      exact ⟨rfl, hc⟩
    · rw [if_neg hc] at h
      cases h

theorem guard_gated_some {g : Bool} {x : Option HeuristicResult}
    {r : HeuristicResult}
    (h : (if g = true then gated x else none) = some r) :
    x = some r ∧ MIN_CONFIDENCE ≤ r.confidence := by
  cases g with
  | false => simp at h
  | true => exact gated_some (by simpa using h)

/-- Every suggestion the pair loop emits is gated below by `MIN_CONFIDENCE`
and, by the per-heuristic facts, bounded above by 1. -/
theorem pairSuggestion_bounds {p q : Workstream} {sug : RelationshipSuggestion}
    (h : pairSuggestion p q = some sug) :
    MIN_CONFIDENCE ≤ sug.confidence ∧ sug.confidence ≤ 1 := by
  unfold pairSuggestion at h
  split at h
  · cases h
  · split at h
    · rename_i r heq
      obtain ⟨hx, hge⟩ := guard_gated_some heq
      cases h
      refine ⟨hge, ?_⟩
      show r.confidence ≤ 1
      rw [shared_tag_conf hx]
      norm_num
    · split at h
      · rename_i r heq
        obtain ⟨hx, hge⟩ := guard_gated_some heq
        cases h
        refine ⟨hge, ?_⟩
        show r.confidence ≤ 1
        rcases name_containment_conf hx with hc | hc <;> rw [hc] <;> norm_num
      · split at h
        · rename_i r heq
          obtain ⟨hx, hge⟩ := guard_gated_some heq
          cases h
          refine ⟨hge, ?_⟩
          show r.confidence ≤ 1
          rw [shared_tag_conf hx]
          norm_num
        · split at h
          · rename_i r heq
            obtain ⟨hx, hge⟩ := guard_gated_some heq
            cases h
            refine ⟨hge, ?_⟩
            show r.confidence ≤ 1
            rcases name_containment_conf hx with hc | hc <;> rw [hc] <;> norm_num
          · split at h
            · rename_i r heq
              obtain ⟨hx, hge⟩ := gated_some heq
              cases h
              refine ⟨hge, ?_⟩
              show r.confidence ≤ 1
              rcases cross_reference_conf hx with hc | hc <;> rw [hc] <;> norm_num
            · split at h
              · rename_i r heq
                obtain ⟨hx, hge⟩ := gated_some heq
                cases h
                refine ⟨hge, ?_⟩
                show r.confidence ≤ 1
                exact le_trans (tag_overlap_conf hx) (by norm_num)
              · split at h
                · rename_i r heq
                  obtain ⟨hx, hge⟩ := gated_some heq
                  cases h
                  refine ⟨hge, ?_⟩
                  show r.confidence ≤ 1
                  exact le_trans (summary_conf hx) (by norm_num)
                · cases h

/-! ### C8 -/

/-- C8: every suggestion in the output of `suggest_relationships` has
confidence between 0.3 and 1.0 inclusive — each append is gated by
`confidence >= MIN_CONFIDENCE` (0.3), and every heuristic\x27s raw confidence is
at most 0.9, so in particular at most 1. -/
theorem C8_confidence_bounds (l : List Workstream)
    (sug : RelationshipSuggestion) (h : sug ∈ suggest_relationships l) :
    3/10 ≤ sug.confidence ∧ sug.confidence ≤ 1 := by
  unfold suggest_relationships at h
  rw [mem_sortByConf] at h
  obtain ⟨pq, _hpq, hps⟩ := List.mem_filterMap.mp h
  exact pairSuggestion_bounds hps

def jupWS : Workstream :=
  { rawWS "jup1" none with
    name := "Jupiter"
    tags := ["program"] }

def netWS : Workstream :=
  { rawWS "net1" none with
    name := "Networking"
    tags := ["jupiter"] }

def c8sug : RelationshipSuggestion :=
  { source_id := "net1"
    target_id := "jup1"
    relationship_type := "parent"
    confidence := 85/100
    reason := "Child tagged with parent\x27s name \x27Jupiter\x27 and parent has program tag" }

theorem shared_jup_net : shared_tag_parent_heuristic jupWS netWS = some
    { confidence := 85/100
      reason := "Child tagged with parent\x27s name \x27Jupiter\x27 and parent has program tag" } :=
  rfl

theorem pair_jup_net : pairSuggestion jupWS netWS = some c8sug := by
  have hpt : program_tag_heuristic jupWS = true := by decide
  unfold pairSuggestion
  rw [if_neg (by decide : ¬(jupWS.parent_id = some netWS.id
        ∨ netWS.parent_id = some jupWS.id)), hpt, shared_jup_net]
  norm_num [gated, MIN_CONFIDENCE, mkSug, c8sug]
  exact ⟨rfl, rfl⟩

theorem suggest_jup_net : suggest_relationships [jupWS, netWS] = [c8sug] := by
  have h1 : allPairs [jupWS, netWS] = [(jupWS, netWS)] := rfl
  have h2 : ([(jupWS, netWS)].filterMap fun pq => pairSuggestion pq.1 pq.2)
      = [c8sug] := by
    simp [List.filterMap_cons, pair_jup_net]
  unfold suggest_relationships
  rw [h1, h2]
  rfl

theorem C8_confidence_bounds_witness :
    c8sug ∈ suggest_relationships [jupWS, netWS] ∧
    3/10 ≤ c8sug.confidence ∧ c8sug.confidence ≤ 1 :=
  ⟨by rw [suggest_jup_net]; exact List.mem_singleton.mpr rfl,
   C8_confidence_bounds [jupWS, netWS] c8sug
     (by rw [suggest_jup_net]; exact List.mem_singleton.mpr rfl)⟩
